import Mathlib

/-!
# Boundary-layer editor: subdivision engine and sharp-edge classifier

Shallow embedding of `boundary_subdivider.cpp` and `hex_element_bl.cpp`.

Conventions of the embedding.
* `long long int` keys are integers; the only place where the machine width
  matters is the bucket index `key % table.size()`, where the key is converted
  to the unsigned 64-bit type of `table.size()` before the remainder is taken.
* A `ValueType` that is a pointer is `Option V`: `none` is `nullptr`.
* `std::vector` is `List`; indexing is `getD`/`set`.
* `YsVec3` coordinates (`double`) are idealised as exact rationals: an expression of the source
  stands for its value without rounding.  No theorem below depends on the value of such an
  expression except where it evaluates one of the example meshes, and none asserts what the
  program stores after rounding.
* The mesh container (`ysmesh.h`) is an external library.  A handle is
  identified with the record it designates, and the adjacency queries of a
  pass are answered from the mesh as it was loaded.
-/

namespace BoundaryLayer

/-! ## HashTable (`boundary_subdivider.cpp`, lines 26-114) -/

/-- `HashTable::Entry`: a key and the value stored for it. -/
structure Entry (V : Type) where
  hashKey : Int
  value : Option V
deriving DecidableEq, Repr

/-- `HashTable<long long int, V*>`: the buckets and the element counter. -/
structure HashTable (V : Type) where
  table : List (List (Entry V))
  nElem : Int
deriving DecidableEq, Repr

/-- `HashTable::MINIMUM_TABLE_SIZE`. -/
def MINIMUM_TABLE_SIZE : Nat := 7

/-- `std::vector::resize(n)`: truncate, or pad with empty buckets. -/
def resize {V : Type} (n : Nat) (table : List (List (Entry V))) : List (List (Entry V)) :=
  table.take n ++ List.replicate (n - table.length) []

/-- Constructor `HashTable::HashTable()`. -/
def HashTable.new {V : Type} : HashTable V :=
  { table := resize MINIMUM_TABLE_SIZE [], nElem := 0 }

/-- `HashTable::CleanUp`: resize to the minimum size, clear every bucket, reset the counter. -/
def HashTable.CleanUp {V : Type} (t : HashTable V) : HashTable V :=
  { table := (resize MINIMUM_TABLE_SIZE t.table).map (fun _ => []), nElem := 0 }

/-- `key % table.size()`: the signed key is converted to `size_t` (reduction modulo `2^64`)
and the remainder by the number of buckets is taken. -/
def hashIdx (key : Int) (size : Nat) : Nat :=
  (key % 2 ^ 64).toNat % size

/-- The `for(auto &e : table[idx])` loop of `Update`: overwrite the value of the first entry
holding `key`; `none` when the loop ends without finding one. -/
def overwrite {V : Type} (key : Int) (value : Option V) : List (Entry V) → Option (List (Entry V))
  | [] => none
  | e :: es =>
    if e.hashKey = key then some ({ e with value := value } :: es)
    else (overwrite key value es).map (fun es' => e :: es')

/-- `HashTable::Update`. -/
def HashTable.Update {V : Type} (t : HashTable V) (key : Int) (value : Option V) : HashTable V :=
  let idx := hashIdx key t.table.length
  match overwrite key value (t.table.getD idx []) with
  | some bucket => { t with table := t.table.set idx bucket }
  | none =>
    { table := t.table.set idx (t.table.getD idx [] ++ [{ hashKey := key, value := value }]),
      nElem := t.nElem + 1 }

/-- The `for(auto &e : table[idx])` loop of `content`: value of the first entry holding `key`,
`nullptr` when there is none. -/
def lookup {V : Type} (key : Int) : List (Entry V) → Option V
  | [] => none
  | e :: es => if e.hashKey = key then e.value else lookup key es

/-- `HashTable::content`. -/
def HashTable.content {V : Type} (t : HashTable V) (key : Int) : Option V :=
  lookup key (t.table.getD (hashIdx key t.table.length) [])

/-- One public mutating call on a table. -/
inductive Op (V : Type) where
  | update (key : Int) (value : Option V)
  | cleanUp
deriving DecidableEq, Repr

/-- Effect of one call. -/
def HashTable.step {V : Type} (t : HashTable V) : Op V → HashTable V
  | .update key value => t.Update key value
  | .cleanUp => t.CleanUp

/-- State reached from the constructor by a sequence of calls. -/
def HashTable.run {V : Type} (ops : List (Op V)) : HashTable V :=
  ops.foldl HashTable.step HashTable.new

/-- The call is an `Update` of `key`. -/
def Op.updates {V : Type} (key : Int) : Op V → Bool
  | .update k _ => decide (k = key)
  | .cleanUp => false

/-- The bucket that `Update` and `content` search for `key`. -/
def HashTable.bucketOf {V : Type} (t : HashTable V) (key : Int) : List (Entry V) :=
  t.table.getD (hashIdx key t.table.length) []

/-- `key` is present: its bucket has an entry holding it. -/
def HashTable.present {V : Type} (t : HashTable V) (key : Int) : Prop :=
  ∃ e ∈ t.bucketOf key, e.hashKey = key

instance {V : Type} (t : HashTable V) (key : Int) : Decidable (t.present key) :=
  inferInstanceAs (Decidable (∃ e ∈ t.bucketOf key, e.hashKey = key))

/-- All entries of the table, bucket after bucket. -/
def HashTable.entries {V : Type} (t : HashTable V) : List (Entry V) :=
  t.table.flatten

/-- Number of entries, over all buckets, that hold `key`. -/
def HashTable.countKey {V : Type} (t : HashTable V) (key : Int) : Nat :=
  t.entries.countP (fun e => decide (e.hashKey = key))

/-- Representation invariant of the table: seven buckets, every entry in the bucket of its
key, no key twice in a bucket, and the counter equal to the number of entries. -/
structure HashTable.Inv {V : Type} (t : HashTable V) : Prop where
  size : t.table.length = MINIMUM_TABLE_SIZE
  placed : ∀ i, ∀ e ∈ t.table.getD i [], hashIdx e.hashKey MINIMUM_TABLE_SIZE = i
  nodup : ∀ i, ((t.table.getD i []).map Entry.hashKey).Nodup
  counted : t.nElem = t.entries.length

/-! ## Mesh container (external library `ysmesh.h`)

Only what the two passes query or change is represented.  Search keys are handed out from one
counter, so that a created node or element gets a key no earlier entity has. -/

/-- `YsVec3`: three coordinates. -/
structure YsVec3 where
  x : ℚ
  y : ℚ
  z : ℚ
deriving DecidableEq

/-- `YsVec3 + YsVec3`. -/
def YsVec3.add (a b : YsVec3) : YsVec3 := ⟨a.x + b.x, a.y + b.y, a.z + b.z⟩

/-- `YsVec3 - YsVec3`. -/
def YsVec3.sub (a b : YsVec3) : YsVec3 := ⟨a.x - b.x, a.y - b.y, a.z - b.z⟩

/-- `YsVec3 * scalar`. -/
def YsVec3.mul (a : YsVec3) (c : ℚ) : YsVec3 := ⟨a.x * c, a.y * c, a.z * c⟩

/-- `YsVec3 / scalar`. -/
def YsVec3.div (a : YsVec3) (c : ℚ) : YsVec3 := ⟨a.x / c, a.y / c, a.z / c⟩

/-- `YsVec3 * YsVec3`: the inner product. -/
def YsVec3.dot (a b : YsVec3) : ℚ := a.x * b.x + a.y * b.y + a.z * b.z

/-- A node of the mesh: `GetSearchKey` and `GetNodePos`. -/
structure Node where
  key : Int
  pos : YsVec3
deriving DecidableEq

/-- An edge of the mesh: `GetSearchKey`, `NdHd(mesh,0)` and `NdHd(mesh,1)`. -/
structure Edge where
  key : Int
  nd0 : Node
  nd1 : Node
deriving DecidableEq

/-- A 3D element as seen through its handle: `GetSearchKey` and `EdHd(mesh,i)`. -/
structure Elem3d where
  key : Int
  EdHd : Nat → Edge

/-- A 2D element as seen through its handle: search key, the keys of the nodes it uses,
`AllEdge`, the normalised exterior normal, `GetCenter`, and `FindElem3dFromElem2d`. -/
structure Elem2d where
  key : Int
  nodes : List Int
  edges : List Edge
  normal : YsVec3
  centre : YsVec3
  elem3d : List Elem3d

/-- A facegroup: search key, `GetBoundaryLayerSpec(fgHd).nLayer` and its 2D elements. -/
structure FaceGroup where
  key : Int
  nLayer : Int
  faces : List Elem2d

/-- A 3D element as the mesh stores it: search key and the keys of its nodes in local order. -/
structure Elem3dData where
  key : Int
  nodes : List Int
deriving DecidableEq

/-- `YsMesh`. -/
structure YsMesh where
  nodes : List Node
  elem3d : List Elem3dData
  elem2d : List Elem2d
  faceGroups : List FaceGroup
  nextKey : Int

/-- `mesh.IsElem2dUsingNode(el2dHd, ndHd)`. -/
def Elem2d.IsUsingNode (el2d : Elem2d) (nd : Node) : Bool :=
  decide (nd.key ∈ el2d.nodes)

/-- `mesh.AddNode(pos)`: the mesh with the new node, and the new node. -/
def YsMesh.AddNode (mesh : YsMesh) (pos : YsVec3) : YsMesh × Node :=
  ({ mesh with nodes := mesh.nodes ++ [{ key := mesh.nextKey, pos := pos }],
               nextKey := mesh.nextKey + 1 },
   { key := mesh.nextKey, pos := pos })

/-- `mesh.AddElem3d(YsMesh::PRISM, prismnodes)`. -/
def YsMesh.AddElem3d (mesh : YsMesh) (prismnodes : List Int) : YsMesh :=
  { mesh with elem3d := mesh.elem3d ++ [{ key := mesh.nextKey, nodes := prismnodes }],
              nextKey := mesh.nextKey + 1 }

/-- `mesh.DeleteElem3d(el3dHD)`. -/
def YsMesh.DeleteElem3d (mesh : YsMesh) (el3dHD : Elem3d) : YsMesh :=
  { mesh with elem3d := mesh.elem3d.filter (fun e => decide (e.key ≠ el3dHD.key)) }

/-! ## Edge subdivision (`boundary_subdivider.cpp`, `main`, lines 133-211)

`num_divisions` is the constant 3 in `main`; it is a parameter `N` here. -/

/-- The mesh and the edge-to-node-array table. A stored `long long int*` is represented by the
row it points to. -/
structure SubdivState where
  mesh : YsMesh
  hashtable : HashTable (List Int)

/-- Position of the `j`-th interpolated point, `pos0 + (pos1 - pos0) * (j + 1) / num_divisions`
(line 188), as the exact value of that expression; the program computes it in `double`
arithmetic, so what it stores is this value up to rounding. -/
def interpolated (N : Nat) (pos0 pos1 : YsVec3) (j : Nat) : YsVec3 :=
  pos0.add (((pos1.sub pos0).mul ((j : ℚ) + 1)).div (N : ℚ))

/-- Body of the interpolation loop (lines 186-190) for one `j`. -/
def interpolateStep (N : Nat) (pos0 pos1 : YsVec3) (acc : YsMesh × List Int) (j : Nat) :
    YsMesh × List Int :=
  let r := acc.1.AddNode (interpolated N pos0 pos1 j)
  (r.1, acc.2.set (j + 1) r.2.key)

/-- The interpolation loop `for(int j = 0; j < (num_divisions - 1); j++)` (lines 184-191). -/
def interpolateLoop (N : Nat) (pos0 pos1 : YsVec3) (mesh : YsMesh) (row : List Int) :
    YsMesh × List Int :=
  (List.range (N - 1)).foldl (interpolateStep N pos0 pos1) (mesh, row)

/-- The endpoint taken as base (array slot 0): the first endpoint when the face uses it,
the second otherwise (lines 169-182). -/
def baseNode (el2d : Elem2d) (edge : Edge) : Node :=
  if el2d.IsUsingNode edge.nd0 then edge.nd0 else edge.nd1

/-- The endpoint taken as top (array slot `num_divisions`). -/
def topNode (el2d : Elem2d) (edge : Edge) : Node :=
  if el2d.IsUsingNode edge.nd0 then edge.nd1 else edge.nd0

/-- Body of the edge loop (lines 163-192) for one through-thickness edge: the new state and
the row `nodearray[i - 3]`. The row is allocated with `num_divisions + 1` slots (line 156);
a slot not written yet holds 0 here. -/
def subdivideEdge (N : Nat) (el2d : Elem2d) (edge : Edge) (s : SubdivState) :
    SubdivState × List Int :=
  let pos0 := (baseNode el2d edge).pos
  let pos1 := (topNode el2d edge).pos
  let row := ((List.replicate (N + 1) (0 : Int)).set 0 (baseNode el2d edge).key).set N
    (topNode el2d edge).key
  let r := interpolateLoop N pos0 pos1 s.mesh row
  ({ mesh := r.1, hashtable := s.hashtable.Update edge.key (some r.2) }, r.2)

/-- The edge loop `for(int i=3; i<6; i++)` (lines 161-193): the new state and `nodearray`. -/
def subdivideEdges (N : Nat) (el2d : Elem2d) (prism : Elem3d) (s : SubdivState) :
    SubdivState × List (List Int) :=
  let r3 := subdivideEdge N el2d (prism.EdHd 3) s
  let r4 := subdivideEdge N el2d (prism.EdHd 4) r3.1
  let r5 := subdivideEdge N el2d (prism.EdHd 5) r4.1
  (r5.1, [r3.2, r4.2, r5.2])

/-- The six entries of `prismnodes` for new prism `i` (lines 199-203). -/
def prismnodes (nodearray : List (List Int)) (i : Nat) : List Int :=
  (List.range 3).map (fun j => (nodearray.getD j []).getD i 0) ++
    (List.range 3).map (fun j => (nodearray.getD j []).getD (i + 1) 0)

/-- Body of the prism construction loop for one `i` (lines 198-204). -/
def buildPrismStep (nodearray : List (List Int)) (mesh : YsMesh) (i : Nat) : YsMesh :=
  mesh.AddElem3d (prismnodes nodearray i)

/-- The prism construction loop `for(int i = 0; i < num_divisions; i++)` (lines 195-205). -/
def buildPrisms (N : Nat) (nodearray : List (List Int)) (mesh : YsMesh) : YsMesh :=
  (List.range N).foldl (buildPrismStep nodearray) mesh

/-- Body of the innermost element loop (lines 151-207) for one 3D element adjacent to
`el2d`. -/
def processPrism (N : Nat) (el2d : Elem2d) (s : SubdivState) (prism : Elem3d) : SubdivState :=
  let r := subdivideEdges N el2d prism s
  { mesh := (buildPrisms N r.2 r.1.mesh).DeleteElem3d prism, hashtable := r.1.hashtable }

/-- The three loops of `main` (lines 137-211) over facegroups, their faces and the 3D elements
found for each face, starting from an empty table. -/
def subdivide (N : Nat) (mesh : YsMesh) : SubdivState :=
  mesh.faceGroups.foldl
    (fun s fg =>
      if 0 < fg.nLayer then
        fg.faces.foldl (fun s el2d => el2d.elem3d.foldl (processPrism N el2d) s) s
      else s)
    { mesh := mesh, hashtable := HashTable.new }

/-! ### A mesh of two prisms over one boundary-layer facegroup

Two triangles `A0 B0 C0` and `B0 D0 C0` in the plane `z = 0`, each the base of a prism of
height 1; the prisms share the through-thickness edges over `B0` and `C0`. -/

def exA0 : Node := ⟨1, ⟨0, 0, 0⟩⟩
def exB0 : Node := ⟨2, ⟨1, 0, 0⟩⟩
def exC0 : Node := ⟨3, ⟨0, 1, 0⟩⟩
def exA1 : Node := ⟨4, ⟨0, 0, 1⟩⟩
def exB1 : Node := ⟨5, ⟨1, 0, 1⟩⟩
def exC1 : Node := ⟨6, ⟨0, 1, 1⟩⟩
def exD0 : Node := ⟨7, ⟨1, 1, 0⟩⟩
def exD1 : Node := ⟨8, ⟨1, 1, 1⟩⟩

/-- Through-thickness edge over `A0`. -/
def exEdgeA : Edge := ⟨11, exA0, exA1⟩
/-- Through-thickness edge over `B0`, stored top endpoint first. -/
def exEdgeB : Edge := ⟨12, exB1, exB0⟩
/-- Through-thickness edge over `C0`. -/
def exEdgeC : Edge := ⟨13, exC0, exC1⟩
/-- Through-thickness edge over `D0`. -/
def exEdgeD : Edge := ⟨14, exD0, exD1⟩

/-- In-plane edges of the two base triangles. -/
def exEdgeAB : Edge := ⟨15, exA0, exB0⟩
def exEdgeBC : Edge := ⟨16, exB0, exC0⟩
def exEdgeCA : Edge := ⟨17, exC0, exA0⟩
def exEdgeBD : Edge := ⟨18, exB0, exD0⟩
def exEdgeDC : Edge := ⟨19, exD0, exC0⟩

/-- Prism over `A0 B0 C0`. -/
def exPrism1 : Elem3d :=
  ⟨21, fun i => [exEdgeAB, exEdgeBC, exEdgeCA, exEdgeA, exEdgeB, exEdgeC].getD i exEdgeAB⟩

/-- Prism over `B0 D0 C0`. -/
def exPrism2 : Elem3d :=
  ⟨22, fun i => [exEdgeBD, exEdgeDC, exEdgeBC, exEdgeB, exEdgeD, exEdgeC].getD i exEdgeBD⟩

/-- Base triangle of `exPrism1`. -/
def exFace1 : Elem2d :=
  ⟨31, [1, 2, 3], [exEdgeAB, exEdgeBC, exEdgeCA], ⟨0, 0, -1⟩, ⟨1 / 3, 1 / 3, 0⟩, [exPrism1]⟩

/-- Base triangle of `exPrism2`. -/
def exFace2 : Elem2d :=
  ⟨32, [2, 7, 3], [exEdgeBD, exEdgeDC, exEdgeBC], ⟨0, 0, -1⟩, ⟨2 / 3, 2 / 3, 0⟩, [exPrism2]⟩

/-- The mesh: one facegroup with `nLayer = 1` holding both triangles. -/
def exMesh : YsMesh :=
  { nodes := [exA0, exB0, exC0, exA1, exB1, exC1, exD0, exD1],
    elem3d := [⟨21, [1, 2, 3, 4, 5, 6]⟩, ⟨22, [2, 7, 3, 5, 8, 6]⟩],
    elem2d := [exFace1, exFace2],
    faceGroups := [⟨41, 1, [exFace1, exFace2]⟩],
    nextKey := 100 }

/-- State at the start of the subdivision of `exMesh`. -/
def exStart : SubdivState := { mesh := exMesh, hashtable := HashTable.new }

/-! ## Linked lists of `hex_element_bl.cpp` (lines 33-201)

The cells a list allocates with `new` are kept in an arena owned by the list; a pointer is
`null`, the index of a cell, or `unset` for a field that was never assigned. -/

/-- A pointer to a list cell. -/
inductive Ptr where
  | null
  | node (i : Nat)
  | unset
deriving DecidableEq, Repr

/-- `Ring_node`. -/
structure Ring_node where
  key : Int
  next : Ptr
  prev : Ptr
deriving DecidableEq, Repr

/-- `Ring`, with the cells it has allocated. -/
structure Ring where
  cells : List Ring_node
  root : Ptr
  num_edges : Int
deriving DecidableEq, Repr

/-- `Ring::Ring()`. -/
def Ring.new : Ring := { cells := [], root := Ptr.null, num_edges := 0 }

/-- `Ring::addEdge` (lines 67-86). -/
def Ring.addEdge (r : Ring) (key : Int) : Ring :=
  if r.root = Ptr.null then
    { cells := r.cells ++ [{ key := key, next := Ptr.null, prev := Ptr.null }],
      root := Ptr.node r.cells.length,
      num_edges := r.num_edges + 1 }
  else
    { cells :=
        (match r.root with
          | Ptr.node i => r.cells.modify (fun c => { c with next := Ptr.node r.cells.length }) i
          | _ => r.cells) ++
          [{ key := key, next := Ptr.null, prev := r.root }],
      root := Ptr.node r.cells.length,
      num_edges := r.num_edges + 1 }

/-- Keys met when following `prev` links from a cell, at most `fuel` cells. -/
def Ring.walkPrev (cells : List Ring_node) : Nat → Ptr → List Int
  | 0, _ => []
  | fuel + 1, Ptr.node i =>
    match cells[i]? with
    | some c => c.key :: Ring.walkPrev cells fuel c.prev
    | none => []
  | _ + 1, _ => []

/-- Keys met when following `prev` links from `root`. -/
def Ring.keysFromRoot (r : Ring) : List Int :=
  Ring.walkPrev r.cells r.cells.length r.root

/-- `Prismlist_node`. -/
structure Prismlist_node where
  key_r : Int
  key_g : Int
  next : Ptr
  prev : Ptr
deriving DecidableEq, Repr

/-- `Prismlist`, with the cells it has allocated. -/
structure Prismlist where
  cells : List Prismlist_node
  root : Ptr
  num_prisms : Int
deriving DecidableEq, Repr

/-- `Prismlist::Prismlist()`. -/
def Prismlist.new : Prismlist := { cells := [], root := Ptr.null, num_prisms := 0 }

/-- `Prismlist::addPrism` (lines 123-144). -/
def Prismlist.addPrism (p : Prismlist) (key1 key2 : Int) : Prismlist :=
  if p.root = Ptr.null then
    { cells := p.cells ++ [{ key_r := key1, key_g := key2, next := Ptr.null, prev := Ptr.null }],
      root := Ptr.node p.cells.length,
      num_prisms := p.num_prisms + 1 }
  else
    { cells :=
        (match p.root with
          | Ptr.node i => p.cells.modify (fun c => { c with next := Ptr.node p.cells.length }) i
          | _ => p.cells) ++
          [{ key_r := key1, key_g := key2, next := Ptr.null, prev := p.root }],
      root := Ptr.node p.cells.length,
      num_prisms := p.num_prisms + 1 }

/-- Pairs met when following `prev` links from a cell, at most `fuel` cells. -/
def Prismlist.walkPrev (cells : List Prismlist_node) : Nat → Ptr → List (Int × Int)
  | 0, _ => []
  | fuel + 1, Ptr.node i =>
    match cells[i]? with
    | some c => (c.key_r, c.key_g) :: Prismlist.walkPrev cells fuel c.prev
    | none => []
  | _ + 1, _ => []

/-- Pairs met when following `prev` links from `root`. -/
def Prismlist.pairsFromRoot (p : Prismlist) : List (Int × Int) :=
  Prismlist.walkPrev p.cells p.cells.length p.root

/-- `BL_node`: the `Ring*` and `Prismlist*` are represented by the objects they point to,
which are not changed once committed. -/
structure BL_node where
  ring : Ring
  prismlist : Prismlist
  next : Ptr
  prev : Ptr
deriving DecidableEq, Repr

/-- `BL`, with the cells it has allocated. -/
structure BL where
  cells : List BL_node
  root : Ptr
  num_bl : Int
deriving DecidableEq, Repr

/-- `BL::BL()`. -/
def BL.new : BL := { cells := [], root := Ptr.null, num_bl := 0 }

/-- `BL::addBL` (lines 181-201). In the `else` branch `temp->next` is never assigned. -/
def BL.addBL (b : BL) (r : Ring) (p : Prismlist) : BL :=
  if b.root = Ptr.null then
    { cells := b.cells ++ [{ ring := r, prismlist := p, next := Ptr.null, prev := Ptr.null }],
      root := Ptr.node b.cells.length,
      num_bl := b.num_bl + 1 }
  else
    { cells :=
        (match b.root with
          | Ptr.node i => b.cells.modify (fun c => { c with next := Ptr.node b.cells.length }) i
          | _ => b.cells) ++
          [{ ring := r, prismlist := p, next := Ptr.unset, prev := b.root }],
      root := Ptr.node b.cells.length,
      num_bl := b.num_bl + 1 }

/-! ## Sharp-edge classifier (`MeshViewerGuiExtension::ColorElements`, lines 203-313) -/

/-- The two colours the classifier assigns (`YsRed()`, `YsGreen()`). -/
inductive YsColor where
  | red
  | green
deriving DecidableEq, Repr

/-- `meshAndDrawing.elem3dColorCode.Update(key, col)`: the colour table of the viewer, an
association from element keys to colours in which `Update` overwrites or inserts. -/
def colorUpdate (codes : List (Int × YsColor)) (key : Int) (col : YsColor) :
    List (Int × YsColor) :=
  if codes.any (fun p => decide (p.1 = key)) then
    codes.map (fun p => if p.1 = key then (key, col) else p)
  else codes ++ [(key, col)]

/-- Colour recorded for an element key, if any. -/
def colorOf (codes : List (Int × YsColor)) (key : Int) : Option YsColor :=
  (codes.find? (fun p => decide (p.1 = key))).map (fun p => p.2)

/-- `mesh.FindElem2dFromNode(node)`: the 2D elements using the node. -/
def YsMesh.FindElem2dFromNode (mesh : YsMesh) (node : Node) : List Elem2d :=
  mesh.elem2d.filter (fun g => g.IsUsingNode node)

/-- `mesh.FindFaceGroupFromElem2d(el2dHd)`: the facegroup holding the element, `none` for
`nullptr`. -/
def YsMesh.FindFaceGroupFromElem2d (mesh : YsMesh) (el2d : Elem2d) : Option FaceGroup :=
  mesh.faceGroups.find? (fun fg => fg.faces.any (fun f => decide (f.key = el2d.key)))

/-- Variables of the facegroup loop body that the neighbour loop changes: the colour table,
`ring`, `prismlist` and `facegroup_is_valid`. -/
structure FgState where
  elem3dColorCode : List (Int × YsColor)
  ring : Ring
  prismlist : Prismlist
  facegroup_is_valid : Bool
deriving DecidableEq, Repr

/-- One colouring loop (lines 271-277 or 280-286): every element found for the face gets the
colour, and the key variable ends as the key of the last one (0 when there is none). -/
def colourLoop (col : YsColor) (els : List Elem3d) (codes : List (Int × YsColor)) :
    List (Int × YsColor) × Int :=
  els.foldl (fun acc el => (colorUpdate acc.1 el.key col, el.key)) (codes, 0)

/-- The sharp-edge branch (lines 267-290). -/
def sharpEdge (el2d : Elem2d) (edge : Edge) (neighbor : Elem2d) (s : FgState) : FgState :=
  let r1 := colourLoop YsColor.red el2d.elem3d s.elem3dColorCode
  let r2 := colourLoop YsColor.green neighbor.elem3d r1.1
  { elem3dColorCode := r2.1,
    ring := s.ring.addEdge edge.key,
    prismlist := s.prismlist.addPrism r1.2 r2.2,
    facegroup_is_valid := true }

/-- `cos_theta = abs(normal1 * normal2)` (line 254), `abs` being the absolute value of a
`double`. -/
def cos_theta (el2d neighbor : Elem2d) : ℚ :=
  |el2d.normal.dot neighbor.normal|

/-- The test of line 261, `((normal1 * dir1) > 0) || ((normal2 * dir2) > 0)`, with
`centre_avg`, `dir1`, `dir2` of lines 257-260, on the exact values of the two inner products;
in `double` arithmetic the outcome can differ when an inner product is within rounding error
of 0. -/
def notConvex (el2d neighbor : Elem2d) : Bool :=
  let centre_avg := (el2d.centre.add neighbor.centre).div 2
  let dir1 := centre_avg.sub el2d.centre
  let dir2 := centre_avg.sub neighbor.centre
  decide (el2d.normal.dot dir1 > 0) || decide (neighbor.normal.dot dir2 > 0)

/-- The condition of line 265. -/
def isSharp (fgHd_key : Int) (fg : FaceGroup) (el2d neighbor : Elem2d) : Bool :=
  decide (fg.key ≠ fgHd_key) && decide (0 < fg.nLayer) && decide (cos_theta el2d neighbor < 1 / 2)

/-- Body of the neighbour loop (lines 243-292) for one neighbour: the new state, and `true`
when the loop is left with `break`. -/
def neighborStep (mesh : YsMesh) (fgHd_key : Int) (el2d : Elem2d) (edge : Edge)
    (neighbor : Elem2d) (s : FgState) : FgState × Bool :=
  match mesh.FindFaceGroupFromElem2d neighbor with
  | none => (s, false)
  | some fg =>
    if notConvex el2d neighbor then (s, true)
    else if isSharp fgHd_key fg el2d neighbor then (sharpEdge el2d edge neighbor s, false)
    else (s, false)

/-- The neighbour loop `for(auto neighbor : mesh.FindElem2dFromNode(node))` (lines 241-293). -/
def neighborLoop (mesh : YsMesh) (fgHd_key : Int) (el2d : Elem2d) (edge : Edge) :
    List Elem2d → FgState → FgState
  | [], s => s
  | neighbor :: rest, s =>
    let r := neighborStep mesh fgHd_key el2d edge neighbor s
    if r.2 then r.1 else neighborLoop mesh fgHd_key el2d edge rest r.1

/-- Body of the edge loop (lines 236-293) for one edge of the face. -/
def edgeStep (mesh : YsMesh) (fgHd_key : Int) (el2d : Elem2d) (s : FgState) (edge : Edge) :
    FgState :=
  neighborLoop mesh fgHd_key el2d edge (mesh.FindElem2dFromNode edge.nd0) s

/-- Body of the face loop (lines 229-294) for one 2D element of the facegroup. -/
def faceStep (mesh : YsMesh) (fgHd_key : Int) (s : FgState) (el2d : Elem2d) : FgState :=
  el2d.edges.foldl (edgeStep mesh fgHd_key el2d) s

/-- What `ColorElements` changes: the colour table and the registry `bl`. -/
structure ColorState where
  elem3dColorCode : List (Int × YsColor)
  bl : BL
deriving DecidableEq, Repr

/-- The local state of a facegroup after its face loop (lines 223-295). -/
def faceLoop (mesh : YsMesh) (fg : FaceGroup) (codes : List (Int × YsColor)) : FgState :=
  fg.faces.foldl (faceStep mesh fg.key)
    { elem3dColorCode := codes, ring := Ring.new, prismlist := Prismlist.new,
      facegroup_is_valid := false }

/-- Body of the facegroup loop (lines 216-307). -/
def facegroupStep (mesh : YsMesh) (st : ColorState) (fg : FaceGroup) : ColorState :=
  if 0 < fg.nLayer then
    let s := faceLoop mesh fg st.elem3dColorCode
    if s.facegroup_is_valid then
      { elem3dColorCode := s.elem3dColorCode, bl := st.bl.addBL s.ring s.prismlist }
    else { elem3dColorCode := s.elem3dColorCode, bl := st.bl }
  else st

/-- `ColorElements` on a loaded mesh (lines 212-308), from the colour table `codes`. -/
def ColorElements (mesh : YsMesh) (codes : List (Int × YsColor)) : ColorState :=
  mesh.faceGroups.foldl (facegroupStep mesh) { elem3dColorCode := codes, bl := BL.new }

/-! ### Corner meshes for the classifier

Two triangles meeting in the edge from `O` to `Y`: `exFaceF` in the plane `z = 0` with exterior
normal `(0, 0, -1)` and a second triangle through the same edge, each in its own facegroup with
`nLayer = 1`. -/

def exO : Node := ⟨1, ⟨0, 0, 0⟩⟩
def exX : Node := ⟨2, ⟨1, 0, 0⟩⟩
def exY : Node := ⟨3, ⟨0, 1, 0⟩⟩
def exZ : Node := ⟨4, ⟨0, 0, 1⟩⟩
def exW : Node := ⟨5, ⟨-24 / 25, 0, 7 / 25⟩⟩

/-- Top nodes of the prism over `O X Y`. -/
def exO1 : Node := ⟨6, ⟨0, 0, 1 / 10⟩⟩
def exX1 : Node := ⟨7, ⟨1, 0, 1 / 10⟩⟩
def exY1 : Node := ⟨8, ⟨0, 1, 1 / 10⟩⟩

/-- Top nodes of the prism over `O Y Z`. -/
def exO2 : Node := ⟨9, ⟨1 / 10, 0, 0⟩⟩
def exY2 : Node := ⟨10, ⟨1 / 10, 1, 0⟩⟩
def exZ2 : Node := ⟨11, ⟨1 / 10, 0, 1⟩⟩

def exEdgeOX : Edge := ⟨51, exO, exX⟩
def exEdgeXY : Edge := ⟨52, exX, exY⟩
/-- The edge shared by the two triangles. -/
def exEdgeYO : Edge := ⟨53, exY, exO⟩
def exEdgeZO : Edge := ⟨54, exZ, exO⟩
def exEdgeYZ : Edge := ⟨55, exY, exZ⟩
def exEdgeWO : Edge := ⟨56, exW, exO⟩
def exEdgeYW : Edge := ⟨57, exY, exW⟩

/-- The prism over `O X Y`, adjacent to `exFaceF` only. -/
def exElemF : Elem3d :=
  ⟨21, fun i => [exEdgeOX, exEdgeXY, exEdgeYO, ⟨61, exO, exO1⟩, ⟨62, exX, exX1⟩,
    ⟨63, exY, exY1⟩].getD i exEdgeOX⟩

/-- The prism over the second triangle, adjacent to it only. -/
def exElemG : Elem3d :=
  ⟨22, fun i => [exEdgeYO, exEdgeYZ, exEdgeZO, ⟨64, exO, exO2⟩, ⟨65, exY, exY2⟩,
    ⟨66, exZ, exZ2⟩].getD i exEdgeYO⟩

/-- The tetrahedron `O X Y Z`, adjacent to both `O X Y` and `O Y Z`. -/
def exTet : Elem3d :=
  ⟨23, fun i => [exEdgeOX, exEdgeXY, exEdgeYO, exEdgeZO, exEdgeYZ, ⟨58, exX, exZ⟩].getD i
    exEdgeOX⟩

/-- Triangle `O X Y` with one adjacent element. -/
def exFaceF : Elem2d :=
  ⟨31, [1, 2, 3], [exEdgeOX, exEdgeXY, exEdgeYO], ⟨0, 0, -1⟩, ⟨1 / 3, 1 / 3, 0⟩, [exElemF]⟩

/-- Triangle `O Y Z` in the plane `x = 0`, exterior normal `(-1, 0, 0)`: a right angle with
`exFaceF`. -/
def exFaceG : Elem2d :=
  ⟨32, [1, 3, 4], [exEdgeYO, exEdgeYZ, exEdgeZO], ⟨-1, 0, 0⟩, ⟨0, 1 / 3, 1 / 3⟩, [exElemG]⟩

/-- Scenario A: the right-angled corner, one facegroup for each triangle, `nLayer = 1`. -/
def exCorner : YsMesh :=
  { nodes := [exO, exX, exY, exZ, exO1, exX1, exY1, exO2, exY2, exZ2],
    elem3d := [⟨21, [1, 2, 3, 6, 7, 8]⟩, ⟨22, [1, 3, 4, 9, 10, 11]⟩],
    elem2d := [exFaceF, exFaceG],
    faceGroups := [⟨41, 1, [exFaceF]⟩, ⟨42, 1, [exFaceG]⟩],
    nextKey := 100 }

/-- Triangle `O Y W`, exterior normal `(-7/25, 0, -24/25)`: nearly coplanar with `exFaceF`. -/
def exFaceFlat : Elem2d :=
  ⟨33, [1, 3, 5], [exEdgeYO, exEdgeYW, exEdgeWO], ⟨-7 / 25, 0, -24 / 25⟩,
    ⟨-8 / 25, 1 / 3, 7 / 75⟩, [exElemG]⟩

/-- Scenario B: as `exCorner`, the second triangle nearly coplanar with the first. -/
def exFlat : YsMesh :=
  { nodes := [exO, exX, exY, exW, exO1, exX1, exY1],
    elem3d := [⟨21, [1, 2, 3, 6, 7, 8]⟩, ⟨22, [1, 3, 5]⟩],
    elem2d := [exFaceF, exFaceFlat],
    faceGroups := [⟨41, 1, [exFaceF]⟩, ⟨42, 1, [exFaceFlat]⟩],
    nextKey := 100 }

/-- Triangle `O X Y` as a face of the tetrahedron. -/
def exTetFaceF : Elem2d := { exFaceF with elem3d := [exTet] }

/-- Triangle `O Y Z` as a face of the tetrahedron. -/
def exTetFaceG : Elem2d := { exFaceG with elem3d := [exTet] }

/-- The right-angled corner filled by one tetrahedron adjacent to both triangles. -/
def exTetCorner : YsMesh :=
  { nodes := [exO, exX, exY, exZ],
    elem3d := [⟨23, [1, 2, 3, 4]⟩],
    elem2d := [exTetFaceF, exTetFaceG],
    faceGroups := [⟨41, 1, [exTetFaceF]⟩, ⟨42, 1, [exTetFaceG]⟩],
    nextKey := 100 }

/-- State of a facegroup loop body before its first face. -/
def exFgStart : FgState :=
  { elem3dColorCode := [], ring := Ring.new, prismlist := Prismlist.new,
    facegroup_is_valid := false }

/-! ## The program `main` of `boundary_subdivider.cpp` -/

/-- Triangle `O X Z`, in no facegroup. -/
def exFaceH : Elem2d :=
  ⟨34, [1, 2, 4], [exEdgeOX, ⟨58, exX, exZ⟩, exEdgeZO], ⟨0, -1, 0⟩, ⟨1 / 3, 0, 1 / 3⟩, []⟩

/-- The corner mesh with the internal triangle. -/
def exCornerInternal : YsMesh :=
  { exCorner with elem2d := [exFaceF, exFaceH, exFaceG] }

/-! ### Reading the linked lists, and the record of a classification pass -/

/-- Entries met when following `prev` links from a cell of the registry, at most `fuel`
cells. -/
def BL.walkPrev (cells : List BL_node) : Nat → Ptr → List (Ring × Prismlist)
  | 0, _ => []
  | fuel + 1, Ptr.node i =>
    match cells[i]? with
    | some c => (c.ring, c.prismlist) :: BL.walkPrev cells fuel c.prev
    | none => []
  | _ + 1, _ => []

/-- Entries met when following `prev` links from `root`. -/
def BL.entriesFromRoot (b : BL) : List (Ring × Prismlist) :=
  BL.walkPrev b.cells b.cells.length b.root

/-- Following `prev` links in an arena of cells of any of the three lists: `prevOf` reads the
`prev` field of a cell and `valOf` what is collected from it. -/
def walkPrevOf {α β : Type} (prevOf : α → Ptr) (valOf : α → β) (cells : List α) :
    Nat → Ptr → List β
  | 0, _ => []
  | fuel + 1, Ptr.node i =>
    match cells[i]? with
    | some c => valOf c :: walkPrevOf prevOf valOf cells fuel (prevOf c)
    | none => []
  | _ + 1, _ => []

/-- The cells form one chain: the `prev` field of cell `i` points to cell `i - 1` (it is null
in cell 0), and `root` points to the last cell (it is null when there is none). -/
def Chained {α : Type} (prevOf : α → Ptr) (cells : List α) (root : Ptr) : Prop :=
  (∀ (i : Nat) (c : α), cells[i]? = some c →
    prevOf c = if i = 0 then Ptr.null else Ptr.node (i - 1)) ∧
  root = if cells.length = 0 then Ptr.null else Ptr.node (cells.length - 1)

/-- The face, edge and neighbour of a neighbour step of facegroup `fg` that takes the
sharp-edge branch: enumerated by the three loops, passing the test of line 261 and
satisfying the condition of line 265. -/
def SharpTriple (mesh : YsMesh) (fg : FaceGroup) (t : Elem2d × Edge × Elem2d) : Prop :=
  t.1 ∈ fg.faces ∧ t.2.1 ∈ t.1.edges ∧ t.2.2 ∈ mesh.FindElem2dFromNode t.2.1.nd0 ∧
  notConvex t.1 t.2.2 = false ∧
  ∃ fg', mesh.FindFaceGroupFromElem2d t.2.2 = some fg' ∧ isSharp fg.key fg' t.1 t.2.2 = true

/-- The ring, the prism list and the flag of a facegroup record the sharp-edge steps `trace`
taken so far, in order: the `i`-th ring cell holds the key of the edge of the `i`-th step and
the `i`-th prism-list cell the keys of the last element found for its face and for its
neighbour (0 when none is found); the counters equal the number of steps; the flag is set
exactly when there was a step; both lists are chained. -/
def Traced (s : FgState) (trace : List (Elem2d × Edge × Elem2d)) : Prop :=
  s.ring.cells.map Ring_node.key = trace.map (fun t => t.2.1.key) ∧
  s.prismlist.cells.map (fun c => (c.key_r, c.key_g)) =
    trace.map (fun t => ((t.1.elem3d.map (fun el => el.key)).getLastD 0,
      (t.2.2.elem3d.map (fun el => el.key)).getLastD 0)) ∧
  s.ring.num_edges = trace.length ∧
  s.prismlist.num_prisms = trace.length ∧
  s.facegroup_is_valid = !trace.isEmpty ∧
  Chained Ring_node.prev s.ring.cells s.ring.root ∧
  Chained Prismlist_node.prev s.prismlist.cells s.prismlist.root

/-- The part of the facegroup state that does not depend on the colour table. -/
def FgState.lists (s : FgState) : Ring × Prismlist × Bool :=
  (s.ring, s.prismlist, s.facegroup_is_valid)

/-- The facegroup is a boundary-layer group whose face loop ends with `facegroup_is_valid`
set (lines 217 and 298). -/
def commits (mesh : YsMesh) (fg : FaceGroup) : Bool :=
  decide (0 < fg.nLayer) && (faceLoop mesh fg []).facegroup_is_valid

/-! # Theorems -/

/-! ### Lemmas on one bucket -/

theorem overwrite_eq_none_iff {V : Type} (k : Int) (v : Option V) (b : List (Entry V)) :
    overwrite k v b = none ↔ ∀ e ∈ b, e.hashKey ≠ k := by
  induction b with
  | nil => simp [overwrite]
  | cons e es ih =>
    by_cases h : e.hashKey = k
    · simp [overwrite, h]
    · simp [overwrite, h, ih]

theorem lookup_overwrite {V : Type} (k : Int) (v : Option V) :
    ∀ (b b' : List (Entry V)), overwrite k v b = some b' → lookup k b' = v := by
  intro b
  induction b with
  | nil => intro b' h; simp [overwrite] at h
  | cons e es ih =>
    intro b' h
    by_cases hk : e.hashKey = k
    · simp [overwrite, hk] at h
      subst h
      simp [lookup, hk]
    · simp [overwrite, hk] at h
      obtain ⟨es', hes, rfl⟩ := h
      simp [lookup, hk, ih es' hes]

theorem lookup_append_of_absent {V : Type} (k : Int) (v : Option V) (b : List (Entry V))
    (h : ∀ e ∈ b, e.hashKey ≠ k) : lookup k (b ++ [{ hashKey := k, value := v }]) = v := by
  induction b with
  | nil => simp [lookup]
  | cons e es ih =>
    have h1 : e.hashKey ≠ k := h e (by simp)
    have h2 : ∀ x ∈ es, x.hashKey ≠ k := fun x hx => h x (by simp [hx])
    simp [lookup, h1, ih h2]

theorem lookup_of_absent {V : Type} (k : Int) (b : List (Entry V))
    (h : ∀ e ∈ b, e.hashKey ≠ k) : lookup k b = none := by
  induction b with
  | nil => rfl
  | cons e es ih =>
    have h1 : e.hashKey ≠ k := h e (by simp)
    have h2 : ∀ x ∈ es, x.hashKey ≠ k := fun x hx => h x (by simp [hx])
    simp [lookup, h1, ih h2]

theorem overwrite_map_hashKey {V : Type} (k : Int) (v : Option V) :
    ∀ (b b' : List (Entry V)), overwrite k v b = some b' →
      b'.map Entry.hashKey = b.map Entry.hashKey := by
  intro b
  induction b with
  | nil => intro b' h; simp [overwrite] at h
  | cons e es ih =>
    intro b' h
    by_cases hk : e.hashKey = k
    · simp [overwrite, hk] at h
      subst h
      simp [hk]
    · simp [overwrite, hk] at h
      obtain ⟨es', hes, rfl⟩ := h
      simp [ih es' hes]

theorem lookup_overwrite_ne {V : Type} (k k' : Int) (v : Option V) (hne : k ≠ k') :
    ∀ (b b' : List (Entry V)), overwrite k v b = some b' → lookup k' b' = lookup k' b := by
  intro b
  induction b with
  | nil => intro b' h; simp [overwrite] at h
  | cons e es ih =>
    intro b' h
    by_cases hk : e.hashKey = k
    · simp [overwrite, hk] at h
      subst h
      simp [lookup, hk, hne]
    · simp [overwrite, hk] at h
      obtain ⟨es', hes, rfl⟩ := h
      simp [lookup, ih es' hes]

theorem lookup_append_ne {V : Type} (k k' : Int) (v : Option V) (hne : k ≠ k')
    (b : List (Entry V)) : lookup k' (b ++ [{ hashKey := k, value := v }]) = lookup k' b := by
  induction b with
  | nil => simp [lookup, hne]
  | cons e es ih => simp [lookup, ih]

/-! ### Lemmas on the bucket vector -/

theorem getD_set_self {α : Type} (l : List α) (i : Nat) (a d : α) (h : i < l.length) :
    (l.set i a).getD i d = a := by
  simp [List.getD_eq_getElem?_getD, h]

theorem getD_set_ne {α : Type} (l : List α) (i j : Nat) (a d : α) (h : i ≠ j) :
    (l.set i a).getD j d = l.getD j d := by
  simp [List.getD_eq_getElem?_getD, h]

theorem hashIdx_lt (key : Int) (size : Nat) (h : 0 < size) : hashIdx key size < size :=
  Nat.mod_lt _ h

theorem Update_of_some {V : Type} (t : HashTable V) (k : Int) (v : Option V)
    (b : List (Entry V)) (h : overwrite k v (t.bucketOf k) = some b) :
    t.Update k v = { table := t.table.set (hashIdx k t.table.length) b, nElem := t.nElem } := by
  unfold HashTable.bucketOf at h
  simp only [HashTable.Update, h]

theorem Update_of_none {V : Type} (t : HashTable V) (k : Int) (v : Option V)
    (h : overwrite k v (t.bucketOf k) = none) :
    t.Update k v =
      { table := t.table.set (hashIdx k t.table.length)
          (t.bucketOf k ++ [{ hashKey := k, value := v }]),
        nElem := t.nElem + 1 } := by
  unfold HashTable.bucketOf at h
  simp only [HashTable.Update, h, HashTable.bucketOf]

theorem Update_table_length {V : Type} (t : HashTable V) (k : Int) (v : Option V) :
    (t.Update k v).table.length = t.table.length := by
  cases h : overwrite k v (t.bucketOf k) with
  | none => rw [Update_of_none t k v h]; simp
  | some b => rw [Update_of_some t k v b h]; simp

theorem content_Update_self {V : Type} (t : HashTable V) (k : Int) (v : Option V)
    (h : 0 < t.table.length) : (t.Update k v).content k = v := by
  have hlt := hashIdx_lt k t.table.length h
  unfold HashTable.content
  rw [Update_table_length]
  cases hb : overwrite k v (t.bucketOf k) with
  | none =>
    rw [Update_of_none t k v hb]
    simp only []
    rw [getD_set_self _ _ _ _ hlt]
    exact lookup_append_of_absent k v _ ((overwrite_eq_none_iff k v _).1 hb)
  | some b =>
    rw [Update_of_some t k v b hb]
    simp only []
    rw [getD_set_self _ _ _ _ hlt]
    exact lookup_overwrite k v _ b hb

theorem content_Update_ne {V : Type} (t : HashTable V) (k k' : Int) (v : Option V)
    (hne : k ≠ k') : (t.Update k v).content k' = t.content k' := by
  unfold HashTable.content
  rw [Update_table_length]
  by_cases hi : hashIdx k t.table.length = hashIdx k' t.table.length
  · by_cases hlt : hashIdx k t.table.length < t.table.length
    · cases hb : overwrite k v (t.bucketOf k) with
      | none =>
        rw [Update_of_none t k v hb]
        simp only []
        rw [← hi, getD_set_self _ _ _ _ hlt]
        exact lookup_append_ne k k' v hne _
      | some b =>
        rw [Update_of_some t k v b hb]
        simp only []
        rw [← hi, getD_set_self _ _ _ _ hlt]
        exact lookup_overwrite_ne k k' v hne _ b hb
    · have hset : ∀ b, t.table.set (hashIdx k t.table.length) b = t.table := by
        intro b
        exact List.set_eq_of_length_le (Nat.le_of_not_lt hlt)
      cases hb : overwrite k v (t.bucketOf k) with
      | none => rw [Update_of_none t k v hb]; simp only [hset]
      | some b => rw [Update_of_some t k v b hb]; simp only [hset]
  · cases hb : overwrite k v (t.bucketOf k) with
    | none =>
      rw [Update_of_none t k v hb]
      simp only []
      rw [getD_set_ne _ _ _ _ _ hi]
    | some b =>
      rw [Update_of_some t k v b hb]
      simp only []
      rw [getD_set_ne _ _ _ _ _ hi]

theorem set_eq_self {α : Type} (d a : α) :
    ∀ (l : List α) (i : Nat), (i < l.length → l.getD i d = a) → l.set i a = l := by
  intro l
  induction l with
  | nil => intro i _; rfl
  | cons x xs ih =>
    intro i h
    cases i with
    | zero =>
      have := h (by simp)
      simp at this
      simp [this]
    | succ n =>
      have h' : n < xs.length → xs.getD n d = a := by
        intro hn
        have := h (by simpa using hn)
        simpa using this
      simp [ih n h']

theorem flatten_length_set {α : Type} (b : List α) :
    ∀ (l : List (List α)) (i : Nat), i < l.length →
      (l.set i b).flatten.length + (l.getD i []).length = l.flatten.length + b.length := by
  intro l
  induction l with
  | nil => intro i h; simp at h
  | cons x xs ih =>
    intro i h
    cases i with
    | zero => simp; omega
    | succ n =>
      have hn : n < xs.length := by simpa using h
      have := ih n hn
      simp only [List.length_flatten, List.getD_eq_getElem?_getD] at this
      simp only [List.set_cons_succ, List.flatten_cons, List.length_append, List.length_flatten,
        List.getD_eq_getElem?_getD, List.getElem?_cons_succ]
      omega

theorem content_CleanUp {V : Type} (t : HashTable V) (k : Int) : t.CleanUp.content k = none := by
  unfold HashTable.content HashTable.CleanUp
  simp only [List.map_const']
  have : ∀ (n i : Nat), (List.replicate n ([] : List (Entry V))).getD i [] = [] := by
    intro n i
    by_cases h : i < n
    · simp [List.getD_eq_getElem?_getD, h]
    · simp [List.getD_eq_getElem?_getD, h]
  rw [this]
  rfl

theorem content_new {V : Type} (k : Int) : (HashTable.new : HashTable V).content k = none := by
  unfold HashTable.content HashTable.new resize MINIMUM_TABLE_SIZE
  simp only [List.take_nil, List.nil_append, List.length_nil, Nat.sub_zero, List.length_replicate]
  have : ∀ (n i : Nat), (List.replicate n ([] : List (Entry V))).getD i [] = [] := by
    intro n i
    by_cases h : i < n
    · simp [List.getD_eq_getElem?_getD, h]
    · simp [List.getD_eq_getElem?_getD, h]
  rw [this]
  rfl

theorem content_foldl_of_not_updated {V : Type} (k : Int) :
    ∀ (ops : List (Op V)) (t : HashTable V), (∀ op ∈ ops, op.updates k = false) →
      t.content k = none → (ops.foldl HashTable.step t).content k = none := by
  intro ops
  induction ops with
  | nil => intro t _ h; exact h
  | cons op rest ih =>
    intro t hops h
    have hrest : ∀ o ∈ rest, o.updates k = false := fun o ho => hops o (by simp [ho])
    have hop : op.updates k = false := hops op (by simp)
    apply ih _ hrest
    cases op with
    | cleanUp => exact content_CleanUp t k
    | update k' v =>
      have hne : k' ≠ k := by simpa [Op.updates] using hop
      simp only [HashTable.step]
      rw [content_Update_ne t k' k v hne]
      exact h

theorem present_iff_overwrite {V : Type} (t : HashTable V) (k : Int) (v : Option V) :
    t.present k ↔ overwrite k v (t.bucketOf k) ≠ none := by
  unfold HashTable.present
  rw [Ne, overwrite_eq_none_iff]
  push_neg
  exact Iff.rfl

theorem countKey_eq_count {V : Type} (t : HashTable V) (k : Int) :
    t.countKey k = (t.entries.map Entry.hashKey).count k := by
  unfold HashTable.countKey
  rw [List.count, List.countP_map]
  congr 1

theorem entries_map_Update_of_some {V : Type} (t : HashTable V) (k : Int) (v : Option V)
    (b : List (Entry V)) (h : overwrite k v (t.bucketOf k) = some b) :
    (t.Update k v).entries.map Entry.hashKey = t.entries.map Entry.hashKey := by
  rw [Update_of_some t k v b h]
  unfold HashTable.entries
  simp only [List.map_flatten, List.map_set]
  congr 1
  apply set_eq_self []
  intro _
  rw [overwrite_map_hashKey k v _ b h]
  unfold HashTable.bucketOf
  simp only [List.getD_eq_getElem?_getD, List.getElem?_map]
  cases t.table[hashIdx k t.table.length]? <;> simp

theorem resize_length {V : Type} (n : Nat) (l : List (List (Entry V))) :
    (resize n l).length = n := by
  unfold resize
  simp only [List.length_append, List.length_take, List.length_replicate]
  omega

theorem getD_replicate_nil {α : Type} (n i : Nat) :
    (List.replicate n ([] : List α)).getD i [] = [] := by
  by_cases h : i < n
  · simp [List.getD_eq_getElem?_getD, h]
  · simp [List.getD_eq_getElem?_getD, h]

theorem flatten_replicate_nil {α : Type} (n : Nat) :
    (List.replicate n ([] : List α)).flatten = [] := by
  induction n with
  | zero => rfl
  | succ n ih => simp [List.replicate_succ, ih]

theorem Inv_new {V : Type} : (HashTable.new : HashTable V).Inv := by
  have ht : (HashTable.new : HashTable V).table = List.replicate MINIMUM_TABLE_SIZE [] := by
    simp [HashTable.new, resize]
  refine ⟨?_, ?_, ?_, ?_⟩
  · rw [ht]; simp
  · intro i e he
    rw [ht, getD_replicate_nil] at he
    simp at he
  · intro i
    rw [ht, getD_replicate_nil]
    simp
  · unfold HashTable.entries
    rw [ht, flatten_replicate_nil]
    rfl

theorem Inv_CleanUp {V : Type} (t : HashTable V) : t.CleanUp.Inv := by
  have ht : t.CleanUp.table = List.replicate MINIMUM_TABLE_SIZE [] := by
    simp [HashTable.CleanUp, List.map_const', resize_length]
  refine ⟨?_, ?_, ?_, ?_⟩
  · rw [ht]; simp
  · intro i e he
    rw [ht, getD_replicate_nil] at he
    simp at he
  · intro i
    rw [ht, getD_replicate_nil]
    simp
  · unfold HashTable.entries
    rw [ht, flatten_replicate_nil]
    rfl

theorem entries_length_Update_of_none {V : Type} (t : HashTable V) (k : Int) (v : Option V)
    (hlen : 0 < t.table.length) (h : overwrite k v (t.bucketOf k) = none) :
    (t.Update k v).entries.length = t.entries.length + 1 := by
  rw [Update_of_none t k v h]
  unfold HashTable.entries
  have := flatten_length_set (t.bucketOf k ++ [{ hashKey := k, value := v }]) t.table
    (hashIdx k t.table.length) (hashIdx_lt k _ hlen)
  unfold HashTable.bucketOf at this ⊢
  simp only [List.length_append, List.length_singleton] at this
  simp only []
  omega

theorem Inv_Update {V : Type} (t : HashTable V) (k : Int) (v : Option V) (h : t.Inv) :
    (t.Update k v).Inv := by
  have hlen : 0 < t.table.length := by rw [h.size]; decide
  have hlt := hashIdx_lt k t.table.length hlen
  have hidx : hashIdx k t.table.length = hashIdx k MINIMUM_TABLE_SIZE := by rw [h.size]
  cases hb : overwrite k v (t.bucketOf k) with
  | none =>
    have habs := (overwrite_eq_none_iff k v _).1 hb
    refine ⟨?_, ?_, ?_, ?_⟩
    · rw [Update_table_length]; exact h.size
    · intro i e he
      rw [Update_of_none t k v hb] at he
      simp only [] at he
      by_cases hi : hashIdx k t.table.length = i
      · rw [hi, getD_set_self _ _ _ _ (hi ▸ hlt)] at he
        rcases List.mem_append.1 he with he | he
        · unfold HashTable.bucketOf at he
          rw [hi] at he
          exact h.placed i e he
        · rw [List.mem_singleton] at he
          rw [he, ← hidx, hi]
      · rw [getD_set_ne _ _ _ _ _ hi] at he
        exact h.placed i e he
    · intro i
      rw [Update_of_none t k v hb]
      simp only []
      by_cases hi : hashIdx k t.table.length = i
      · rw [hi, getD_set_self _ _ _ _ (hi ▸ hlt)]
        rw [List.map_append, List.nodup_append]
        refine ⟨?_, by simp, ?_⟩
        · unfold HashTable.bucketOf
          rw [hi]
          exact h.nodup i
        · intro a ha hb'
          simp only [List.map_cons, List.map_nil, List.mem_singleton] at hb'
          obtain ⟨e, he, rfl⟩ := List.mem_map.1 ha
          exact habs e he hb'
      · rw [getD_set_ne _ _ _ _ _ hi]
        exact h.nodup i
    · rw [entries_length_Update_of_none t k v hlen hb, Update_of_none t k v hb]
      simp only []
      rw [h.counted]
      push_cast
      rfl
  | some b =>
    have hkeys := overwrite_map_hashKey k v _ b hb
    refine ⟨?_, ?_, ?_, ?_⟩
    · rw [Update_table_length]; exact h.size
    · intro i e he
      rw [Update_of_some t k v b hb] at he
      simp only [] at he
      by_cases hi : hashIdx k t.table.length = i
      · rw [hi, getD_set_self _ _ _ _ (hi ▸ hlt)] at he
        have : e.hashKey ∈ (t.bucketOf k).map Entry.hashKey := by
          rw [← hkeys]; exact List.mem_map_of_mem _ he
        obtain ⟨e', he', hk'⟩ := List.mem_map.1 this
        unfold HashTable.bucketOf at he'
        rw [hi] at he'
        rw [← hk']
        exact h.placed i e' he'
      · rw [getD_set_ne _ _ _ _ _ hi] at he
        exact h.placed i e he
    · intro i
      rw [Update_of_some t k v b hb]
      simp only []
      by_cases hi : hashIdx k t.table.length = i
      · rw [hi, getD_set_self _ _ _ _ (hi ▸ hlt), hkeys]
        unfold HashTable.bucketOf
        rw [hi]
        exact h.nodup i
      · rw [getD_set_ne _ _ _ _ _ hi]
        exact h.nodup i
    · have hl : (t.Update k v).entries.length = t.entries.length := by
        have := congrArg List.length (entries_map_Update_of_some t k v b hb)
        simpa using this
      rw [hl, Update_of_some t k v b hb]
      exact h.counted

theorem Inv_run {V : Type} (ops : List (Op V)) : (HashTable.run ops).Inv := by
  unfold HashTable.run
  suffices hgen : ∀ (t : HashTable V), t.Inv → (ops.foldl HashTable.step t).Inv from
    hgen _ Inv_new
  induction ops with
  | nil => intro t h; exact h
  | cons op rest ih =>
    intro t h
    apply ih
    cases op with
    | cleanUp => exact Inv_CleanUp t
    | update k v => exact Inv_Update t k v h

theorem Inv_keys_nodup {V : Type} (t : HashTable V) (h : t.Inv) :
    (t.entries.map Entry.hashKey).Nodup := by
  unfold HashTable.entries
  rw [List.map_flatten, List.nodup_flatten]
  constructor
  · intro l hl
    obtain ⟨b, hb, rfl⟩ := List.mem_map.1 hl
    obtain ⟨i, hi, rfl⟩ := List.getElem_of_mem hb
    have := h.nodup i
    rwa [List.getD_eq_getElem _ _ hi] at this
  · rw [List.pairwise_iff_getElem]
    intro i j hi hj hij
    simp only [List.length_map] at hi hj
    simp only [List.getElem_map]
    intro a ha hb
    obtain ⟨e1, he1, rfl⟩ := List.mem_map.1 ha
    obtain ⟨e2, he2, h12⟩ := List.mem_map.1 hb
    have p1 := h.placed i e1 (by rw [List.getD_eq_getElem _ _ hi]; exact he1)
    have p2 := h.placed j e2 (by rw [List.getD_eq_getElem _ _ hj]; exact he2)
    rw [h12, p1] at p2
    omega

/-! ### Claims on the hashtable -/

/-- C4: `content` on a key that was never inserted returns the absent sentinel `nullptr`.
For every sequence `ops` of `Update`/`CleanUp` calls in which no `Update` has key `k`,
`content k` is `none` in the state reached by `ops` from a freshly constructed table (the
fresh table itself when `ops` is empty), and also in the state reached by `ops` from a table
that was just cleaned up, whatever calls came before the `CleanUp`. -/
theorem content_never_inserted {V : Type} (ops : List (Op V)) (k : Int)
    (h : ∀ op ∈ ops, op.updates k = false) :
    (HashTable.run ops).content k = none ∧
    ∀ before : List (Op V), (HashTable.run (before ++ Op.cleanUp :: ops)).content k = none := by
  refine ⟨content_foldl_of_not_updated k ops HashTable.new h (content_new k), ?_⟩
  intro before
  unfold HashTable.run
  rw [List.foldl_append, List.foldl_cons]
  exact content_foldl_of_not_updated k ops _ h (content_CleanUp _ k)

theorem content_never_inserted_witness :
    (∀ op ∈ [Op.update 8 (some 3), Op.update (-6) none], Op.updates 15 op = false) ∧
      (HashTable.run [Op.update 8 (some 3), Op.update (-6) none] : HashTable Nat).content 15
        = none ∧
      (HashTable.run [Op.update 15 (some 5), Op.cleanUp, Op.update 8 (some 3),
        Op.update (-6) none] : HashTable Nat).content 15 = none :=
  ⟨by decide, (content_never_inserted _ 15 (by decide)).1,
   (content_never_inserted [Op.update 8 (some 3), Op.update (-6) none] 15 (by decide)).2
     [Op.update 15 (some 5)]⟩

/-- C5: for every table state (with at least one bucket, as every constructed table has),
key `k` and value `v`, `content k` after `Update k v` returns exactly `v`, whether `k` was
absent (insert) or present (overwrite). -/
theorem content_after_Update {V : Type} (t : HashTable V) (k : Int) (v : Option V)
    (h : 0 < t.table.length) : (t.Update k v).content k = v :=
  content_Update_self t k v h

theorem content_after_Update_witness :
    0 < (HashTable.run [Op.update 1 (some 5), Op.update 8 (some 6)] : HashTable Nat).table.length ∧
      ((HashTable.run [Op.update 1 (some 5), Op.update 8 (some 6)] : HashTable Nat).Update 8
        (some 9)).content 8 = some 9 :=
  ⟨by decide, content_after_Update _ 8 (some 9) (by decide)⟩

/-- C6: for every table state and key `k`: when `k` is present, `Update k v` leaves `nElem`
unchanged and creates no further entry (the number of entries holding `k` and the total number
of entries are unchanged); when `k` is not present, `Update k v` increases `nElem` by exactly
one. -/
theorem Update_nElem {V : Type} (t : HashTable V) (k : Int) (v : Option V) :
    (t.present k →
      (t.Update k v).nElem = t.nElem ∧ (t.Update k v).countKey k = t.countKey k ∧
        (t.Update k v).entries.length = t.entries.length) ∧
    (¬ t.present k → (t.Update k v).nElem = t.nElem + 1) := by
  constructor
  · intro hp
    have hne := (present_iff_overwrite t k v).1 hp
    cases hb : overwrite k v (t.bucketOf k) with
    | none => exact absurd hb hne
    | some b =>
      have hkeys := entries_map_Update_of_some t k v b hb
      refine ⟨?_, ?_, ?_⟩
      · rw [Update_of_some t k v b hb]
      · rw [countKey_eq_count, countKey_eq_count, hkeys]
      · simpa using congrArg List.length hkeys
  · intro hp
    have hb : overwrite k v (t.bucketOf k) = none := by
      by_contra hne
      exact hp ((present_iff_overwrite t k v).2 hne)
    rw [Update_of_none t k v hb]

theorem Update_nElem_witness :
    ((HashTable.run [Op.update 1 (some 5), Op.update 8 (some 6)] : HashTable Nat).Update 8
        (some 9)).nElem = 2 ∧
      ((HashTable.run [Op.update 1 (some 5), Op.update 8 (some 6)] : HashTable Nat).Update 15
        (some 9)).nElem = 2 + 1 :=
  ⟨((Update_nElem (HashTable.run [Op.update 1 (some 5), Op.update 8 (some 6)]) 8
      (some 9)).1 (by decide)).1,
   (Update_nElem (HashTable.run [Op.update 1 (some 5), Op.update 8 (some 6)]) 15
      (some 9)).2 (by decide)⟩

/-- C7: in every state reachable from the constructor by `Update` and `CleanUp` calls, each
key occurs in at most one entry over all buckets, every entry lies in the bucket its key
hashes to, and `nElem` equals the total number of entries. -/
theorem reachable_invariant {V : Type} (ops : List (Op V)) :
    (∀ k, (HashTable.run ops).countKey k ≤ 1) ∧
    (∀ i, ∀ e ∈ (HashTable.run ops).table.getD i [],
      hashIdx e.hashKey (HashTable.run ops).table.length = i) ∧
    (HashTable.run ops).nElem = (HashTable.run ops).entries.length := by
  have hinv := Inv_run ops
  refine ⟨?_, ?_, hinv.counted⟩
  · intro k
    rw [countKey_eq_count]
    exact List.nodup_iff_count_le_one.1 (Inv_keys_nodup _ hinv) k
  · intro i e he
    rw [hinv.size]
    exact hinv.placed i e he

theorem reachable_invariant_witness :
    (HashTable.run [Op.update 1 (some 5), Op.update 8 (some 6), Op.update 1 none,
        Op.update (-1) (some 7)] : HashTable Nat).countKey 1 ≤ 1 ∧
      (HashTable.run [Op.update 1 (some 5), Op.update 8 (some 6), Op.update 1 none,
        Op.update (-1) (some 7)] : HashTable Nat).nElem = 3 :=
  ⟨(reachable_invariant _).1 1,
   ((reachable_invariant
      [Op.update 1 (some 5), Op.update 8 (some 6), Op.update 1 none,
        Op.update (-1) (some 7)]).2.2).trans (by decide)⟩

/-! ### Lemmas on the subdivision loops -/

theorem interpolate_foldl (N : Nat) (pos0 pos1 : YsVec3) (m : YsMesh) (row : List Int) :
    ∀ n : Nat,
      ((List.range n).foldl (interpolateStep N pos0 pos1) (m, row)).1.nodes =
          m.nodes ++ (List.range n).map
            (fun (j : Nat) => (⟨m.nextKey + (j : Int), interpolated N pos0 pos1 j⟩ : Node)) ∧
      ((List.range n).foldl (interpolateStep N pos0 pos1) (m, row)).1.nextKey = m.nextKey + n ∧
      ((List.range n).foldl (interpolateStep N pos0 pos1) (m, row)).1.elem3d = m.elem3d ∧
      ((List.range n).foldl (interpolateStep N pos0 pos1) (m, row)).2.length = row.length ∧
      ∀ i : Nat, ((List.range n).foldl (interpolateStep N pos0 pos1) (m, row)).2.getD i 0 =
        if 1 ≤ i ∧ i ≤ n ∧ i < row.length then m.nextKey + ((i : Int) - 1) else row.getD i 0 := by
  intro n
  induction n with
  | zero =>
    refine ⟨by simp, by simp, rfl, rfl, ?_⟩
    intro i
    have : ¬ (1 ≤ i ∧ i ≤ 0 ∧ i < row.length) := by omega
    rw [if_neg this]
    rfl
  | succ n ih =>
    obtain ⟨h1, h2, h3, h4, h5⟩ := ih
    rw [List.range_succ, List.foldl_append]
    simp only [List.foldl_cons, List.foldl_nil]
    refine ⟨?_, ?_, ?_, ?_, ?_⟩
    · simp only [interpolateStep, YsMesh.AddNode]
      rw [h1, h2, List.map_append]
      simp
    · simp only [interpolateStep, YsMesh.AddNode]
      rw [h2]
      push_cast
      ring
    · simp only [interpolateStep, YsMesh.AddNode]
      exact h3
    · simp only [interpolateStep, List.length_set]
      exact h4
    · intro i
      simp only [interpolateStep, YsMesh.AddNode]
      by_cases hi : n + 1 = i
      · subst hi
        by_cases hlen : n + 1 < row.length
        · rw [getD_set_self _ _ _ _ (by rw [h4]; exact hlen), h2]
          have : (1 ≤ n + 1 ∧ n + 1 ≤ n + 1 ∧ n + 1 < row.length) := by omega
          rw [if_pos this]
          push_cast
          ring
        · rw [List.set_eq_of_length_le (by rw [h4]; omega), h5]
          have h' : ¬ (1 ≤ n + 1 ∧ n + 1 ≤ n ∧ n + 1 < row.length) := by omega
          have h'' : ¬ (1 ≤ n + 1 ∧ n + 1 ≤ n + 1 ∧ n + 1 < row.length) := by omega
          rw [if_neg h', if_neg h'']
      · rw [getD_set_ne _ _ _ _ _ hi, h5]
        by_cases hc : 1 ≤ i ∧ i ≤ n ∧ i < row.length
        · have hc' : 1 ≤ i ∧ i ≤ n + 1 ∧ i < row.length := by omega
          rw [if_pos hc, if_pos hc']
        · have hc' : ¬ (1 ≤ i ∧ i ≤ n + 1 ∧ i < row.length) := by omega
          rw [if_neg hc, if_neg hc']

theorem subdivideEdge_mesh (N : Nat) (el2d : Elem2d) (edge : Edge) (s : SubdivState) :
    (subdivideEdge N el2d edge s).1.mesh.nodes =
        s.mesh.nodes ++ (List.range (N - 1)).map
          (fun (j : Nat) => (⟨s.mesh.nextKey + (j : Int), interpolated N (baseNode el2d edge).pos (topNode el2d edge).pos j⟩ : Node)) ∧
    (subdivideEdge N el2d edge s).1.mesh.nextKey = s.mesh.nextKey + ((N - 1 : Nat) : Int) ∧
    (subdivideEdge N el2d edge s).1.mesh.elem3d = s.mesh.elem3d ∧
    (subdivideEdge N el2d edge s).1.hashtable =
      s.hashtable.Update edge.key (some (subdivideEdge N el2d edge s).2) := by
  obtain ⟨h1, h2, h3, _, _⟩ := interpolate_foldl N (baseNode el2d edge).pos
    (topNode el2d edge).pos s.mesh
    (((List.replicate (N + 1) (0 : Int)).set 0 (baseNode el2d edge).key).set N
      (topNode el2d edge).key) (N - 1)
  exact ⟨h1, h2, h3, rfl⟩

theorem subdivideEdge_row (N : Nat) (el2d : Elem2d) (edge : Edge) (s : SubdivState) :
    (subdivideEdge N el2d edge s).2.length = N + 1 ∧
    (1 ≤ N → (subdivideEdge N el2d edge s).2.getD 0 0 = (baseNode el2d edge).key) ∧
    (subdivideEdge N el2d edge s).2.getD N 0 = (topNode el2d edge).key ∧
    ∀ i : Nat, 1 ≤ i → i < N →
      (subdivideEdge N el2d edge s).2.getD i 0 = s.mesh.nextKey + ((i : Int) - 1) := by
  obtain ⟨_, _, _, h4, h5⟩ := interpolate_foldl N (baseNode el2d edge).pos
    (topNode el2d edge).pos s.mesh
    (((List.replicate (N + 1) (0 : Int)).set 0 (baseNode el2d edge).key).set N
      (topNode el2d edge).key) (N - 1)
  have hlen : (((List.replicate (N + 1) (0 : Int)).set 0 (baseNode el2d edge).key).set N
      (topNode el2d edge).key).length = N + 1 := by simp
  refine ⟨?_, ?_, ?_, ?_⟩
  · exact h4.trans hlen
  · intro hN
    have := h5 0
    rw [if_neg (by omega)] at this
    refine this.trans ?_
    rw [getD_set_ne _ _ _ _ _ (by omega : N ≠ 0)]
    exact getD_set_self _ _ _ _ (by simp)
  · have := h5 N
    rw [if_neg (by omega)] at this
    refine this.trans ?_
    exact getD_set_self _ _ _ _ (by simp)
  · intro i h1 h2
    have := h5 i
    rw [if_pos (by rw [hlen]; omega)] at this
    exact this

theorem buildPrisms_foldl (nodearray : List (List Int)) (m : YsMesh) :
    ∀ n : Nat,
      ((List.range n).foldl (buildPrismStep nodearray) m).elem3d =
          m.elem3d ++ (List.range n).map
            (fun (i : Nat) => (⟨m.nextKey + (i : Int), prismnodes nodearray i⟩ : Elem3dData)) ∧
      ((List.range n).foldl (buildPrismStep nodearray) m).nextKey =
          m.nextKey + (n : Int) ∧
      ((List.range n).foldl (buildPrismStep nodearray) m).nodes =
          m.nodes := by
  intro n
  induction n with
  | zero => simp
  | succ n ih =>
    obtain ⟨h1, h2, h3⟩ := ih
    rw [List.range_succ, List.foldl_append]
    simp only [List.foldl_cons, List.foldl_nil, buildPrismStep, YsMesh.AddElem3d]
    refine ⟨?_, ?_, h3⟩
    · rw [h1, h2, List.map_append]
      simp
    · rw [h2]
      push_cast
      ring

theorem subdivideEdges_mesh (N : Nat) (el2d : Elem2d) (prism : Elem3d) (s : SubdivState) :
    (subdivideEdges N el2d prism s).1.mesh.nodes =
        s.mesh.nodes ++
          (List.range (N - 1)).map (fun (j : Nat) =>
            (⟨s.mesh.nextKey + (j : Int), interpolated N (baseNode el2d (prism.EdHd 3)).pos (topNode el2d (prism.EdHd 3)).pos j⟩ : Node)) ++
          (List.range (N - 1)).map (fun (j : Nat) =>
            (⟨s.mesh.nextKey + ((N - 1 : Nat) : Int) + (j : Int), interpolated N (baseNode el2d (prism.EdHd 4)).pos (topNode el2d (prism.EdHd 4)).pos j⟩ : Node)) ++
          (List.range (N - 1)).map (fun (j : Nat) =>
            (⟨s.mesh.nextKey + 2 * ((N - 1 : Nat) : Int) + (j : Int), interpolated N (baseNode el2d (prism.EdHd 5)).pos (topNode el2d (prism.EdHd 5)).pos j⟩ : Node)) ∧
    (subdivideEdges N el2d prism s).1.mesh.nextKey =
        s.mesh.nextKey + 3 * ((N - 1 : Nat) : Int) ∧
    (subdivideEdges N el2d prism s).1.mesh.elem3d = s.mesh.elem3d := by
  obtain ⟨a1, a2, a3, _⟩ := subdivideEdge_mesh N el2d (prism.EdHd 3) s
  obtain ⟨b1, b2, b3, _⟩ := subdivideEdge_mesh N el2d (prism.EdHd 4)
    (subdivideEdge N el2d (prism.EdHd 3) s).1
  obtain ⟨c1, c2, c3, _⟩ := subdivideEdge_mesh N el2d (prism.EdHd 5)
    (subdivideEdge N el2d (prism.EdHd 4) (subdivideEdge N el2d (prism.EdHd 3) s).1).1
  refine ⟨?_, ?_, ?_⟩
  · show (subdivideEdge N el2d (prism.EdHd 5) _).1.mesh.nodes = _
    rw [c1, b1, a1, b2, a2]
    have : s.mesh.nextKey + ((N - 1 : Nat) : Int) + ((N - 1 : Nat) : Int) =
        s.mesh.nextKey + 2 * ((N - 1 : Nat) : Int) := by ring
    rw [this]
  · show (subdivideEdge N el2d (prism.EdHd 5) _).1.mesh.nextKey = _
    rw [c2, b2, a2]
    ring
  · show (subdivideEdge N el2d (prism.EdHd 5) _).1.mesh.elem3d = _
    rw [c3, b3, a3]

theorem processPrism_elem3d (N : Nat) (el2d : Elem2d) (prism : Elem3d) (s : SubdivState)
    (hkey : prism.key < s.mesh.nextKey) :
    (processPrism N el2d s prism).mesh.elem3d =
      s.mesh.elem3d.filter (fun e => decide (e.key ≠ prism.key)) ++
        (List.range N).map (fun (i : Nat) =>
          (⟨s.mesh.nextKey + 3 * ((N - 1 : Nat) : Int) + (i : Int), prismnodes (subdivideEdges N el2d prism s).2 i⟩ : Elem3dData)) := by
  obtain ⟨_, e2, e3⟩ := subdivideEdges_mesh N el2d prism s
  obtain ⟨p1, _, _⟩ := buildPrisms_foldl (subdivideEdges N el2d prism s).2
    (subdivideEdges N el2d prism s).1.mesh N
  show ((buildPrisms N _ _).elem3d).filter _ = _
  unfold buildPrisms
  rw [p1, e2, e3, List.filter_append]
  congr 1
  rw [List.filter_eq_self]
  intro e he
  obtain ⟨i, _, rfl⟩ := List.mem_map.1 he
  simp only [ne_eq, decide_not, Bool.not_eq_true', decide_eq_false_iff_not]
  omega

theorem processPrism_nodes (N : Nat) (el2d : Elem2d) (prism : Elem3d) (s : SubdivState) :
    (processPrism N el2d s prism).mesh.nodes = (subdivideEdges N el2d prism s).1.mesh.nodes ∧
    (processPrism N el2d s prism).mesh.nextKey =
      s.mesh.nextKey + 3 * ((N - 1 : Nat) : Int) + (N : Int) ∧
    (processPrism N el2d s prism).hashtable = (subdivideEdges N el2d prism s).1.hashtable := by
  obtain ⟨_, e2, _⟩ := subdivideEdges_mesh N el2d prism s
  obtain ⟨_, p2, p3⟩ := buildPrisms_foldl (subdivideEdges N el2d prism s).2
    (subdivideEdges N el2d prism s).1.mesh N
  refine ⟨?_, ?_, rfl⟩
  · show (buildPrisms N _ _).nodes = _
    unfold buildPrisms
    rw [p3]
  · show (buildPrisms N _ _).nextKey = _
    unfold buildPrisms
    rw [p2, e2]

theorem subdivideEdges_rows (N : Nat) (el2d : Elem2d) (prism : Elem3d) (s : SubdivState)
    (a : Nat) (ha : a < 3) :
    ((subdivideEdges N el2d prism s).2.getD a []).length = N + 1 ∧
    (1 ≤ N → ((subdivideEdges N el2d prism s).2.getD a []).getD 0 0 =
      (baseNode el2d (prism.EdHd (a + 3))).key) ∧
    ((subdivideEdges N el2d prism s).2.getD a []).getD N 0 =
      (topNode el2d (prism.EdHd (a + 3))).key ∧
    ∀ j : Nat, 1 ≤ j → j < N →
      ((subdivideEdges N el2d prism s).2.getD a []).getD j 0 =
        s.mesh.nextKey + (a : Int) * ((N - 1 : Nat) : Int) + ((j : Int) - 1) := by
  obtain ⟨_, a2, _, _⟩ := subdivideEdge_mesh N el2d (prism.EdHd 3) s
  obtain ⟨_, b2, _, _⟩ := subdivideEdge_mesh N el2d (prism.EdHd 4)
    (subdivideEdge N el2d (prism.EdHd 3) s).1
  have r3 := subdivideEdge_row N el2d (prism.EdHd 3) s
  have r4 := subdivideEdge_row N el2d (prism.EdHd 4) (subdivideEdge N el2d (prism.EdHd 3) s).1
  have r5 := subdivideEdge_row N el2d (prism.EdHd 5)
    (subdivideEdge N el2d (prism.EdHd 4) (subdivideEdge N el2d (prism.EdHd 3) s).1).1
  rw [b2, a2] at r5
  rw [a2] at r4
  interval_cases a
  · refine ⟨r3.1, r3.2.1, r3.2.2.1, ?_⟩
    intro j h1 h2
    have := r3.2.2.2 j h1 h2
    simp only [subdivideEdges, List.getD_cons_zero]
    rw [this]
    ring
  · refine ⟨r4.1, r4.2.1, r4.2.2.1, ?_⟩
    intro j h1 h2
    have := r4.2.2.2 j h1 h2
    simp only [subdivideEdges, List.getD_cons_succ, List.getD_cons_zero]
    rw [this]
    ring
  · refine ⟨r5.1, r5.2.1, r5.2.2.1, ?_⟩
    intro j h1 h2
    have := r5.2.2.2 j h1 h2
    simp only [subdivideEdges, List.getD_cons_succ, List.getD_cons_zero]
    rw [this]
    ring

theorem prismnodes_eq (nodearray : List (List Int)) (i : Nat) :
    prismnodes nodearray i =
      [(nodearray.getD 0 []).getD i 0, (nodearray.getD 1 []).getD i 0,
       (nodearray.getD 2 []).getD i 0, (nodearray.getD 0 []).getD (i + 1) 0,
       (nodearray.getD 1 []).getD (i + 1) 0, (nodearray.getD 2 []).getD (i + 1) 0] := by
  simp [prismnodes, List.range_succ]

theorem processPrism_nextKey_le (N : Nat) (el2d : Elem2d) (prism : Elem3d) (s : SubdivState) :
    s.mesh.nextKey ≤ (processPrism N el2d s prism).mesh.nextKey := by
  rw [(processPrism_nodes N el2d prism s).2.1]
  omega

theorem foldl_processPrism_nextKey_le (N : Nat) :
    ∀ (work : List (Elem2d × Elem3d)) (s : SubdivState),
      s.mesh.nextKey ≤ (work.foldl (fun st w => processPrism N w.1 st w.2) s).mesh.nextKey := by
  intro work
  induction work with
  | nil => intro s; exact le_refl _
  | cons w rest ih =>
    intro s
    exact le_trans (processPrism_nextKey_le N w.1 w.2 s) (ih _)

/-! ### Claims on the subdivision pass -/

/-- C1, as stated, fails: in the run over `exMesh` with three divisions the two prisms share
the through-thickness edge over `B0` (local edge 4 of the first, local edge 3 of the second);
the row used for it while the second prism is processed is `[2, 109, 110, 5]`, not the row
`[2, 102, 103, 5]` used while the first was processed, and the table ends up holding the
second row. -/
theorem shared_edge_row_not_reused :
    exPrism1.EdHd 4 = exPrism2.EdHd 3 ∧
    subdivide 3 exMesh =
      processPrism 3 exFace2 (processPrism 3 exFace1 exStart exPrism1) exPrism2 ∧
    (subdivideEdges 3 exFace1 exPrism1 exStart).2.getD 1 [] = [2, 102, 103, 5] ∧
    (subdivideEdges 3 exFace2 exPrism2 (processPrism 3 exFace1 exStart exPrism1)).2.getD 0 [] =
      [2, 109, 110, 5] ∧
    (subdivideEdges 3 exFace2 exPrism2 (processPrism 3 exFace1 exStart exPrism1)).2.getD 0 [] ≠
      (subdivideEdges 3 exFace1 exPrism1 exStart).2.getD 1 [] ∧
    (subdivide 3 exMesh).hashtable.content 12 = some [2, 109, 110, 5] :=
  ⟨by decide, rfl, by decide, by decide, by decide, by decide⟩

/-- C1, amended: the row for a shared edge is built anew for each prism. Let `P1` be processed
in state `s`, then the prisms of `between`, then `P2`, and let local edge `a + 3` of `P1` be
local edge `b + 3` of `P2`. Both rows hold the endpoints of the edge in slots 0 and `N`, as
oriented by the respective face; every interior slot `j` of the row of `P2` holds a key handed
out after `P1` was processed, different from slot `j` of the row of `P1`. Each edge step stores
its row under the key of the edge: `content` right after the step returns that row. The key in
an interior slot of the row of `P2` is handed out in the edge loop of `P2` itself: it is not
below the counter before that loop and below the counter after it. -/
theorem shared_edge_row_rebuilt (N : Nat) (hN : 2 ≤ N) (el2d1 el2d2 : Elem2d)
    (P1 P2 : Elem3d) (between : List (Elem2d × Elem3d)) (s : SubdivState) (a b : Nat)
    (ha : a < 3) (hb : b < 3) (hshared : P1.EdHd (a + 3) = P2.EdHd (b + 3)) :
    (((subdivideEdges N el2d1 P1 s).2.getD a []).getD 0 0 =
        (baseNode el2d1 (P2.EdHd (b + 3))).key ∧
      ((subdivideEdges N el2d1 P1 s).2.getD a []).getD N 0 =
        (topNode el2d1 (P2.EdHd (b + 3))).key) ∧
    (((subdivideEdges N el2d2 P2
          (between.foldl (fun st w => processPrism N w.1 st w.2)
            (processPrism N el2d1 s P1))).2.getD b []).getD 0 0 =
        (baseNode el2d2 (P2.EdHd (b + 3))).key ∧
      ((subdivideEdges N el2d2 P2
          (between.foldl (fun st w => processPrism N w.1 st w.2)
            (processPrism N el2d1 s P1))).2.getD b []).getD N 0 =
        (topNode el2d2 (P2.EdHd (b + 3))).key) ∧
    (∀ j : Nat, 1 ≤ j → j < N →
      ((subdivideEdges N el2d1 P1 s).2.getD a []).getD j 0 <
          (processPrism N el2d1 s P1).mesh.nextKey ∧
      (processPrism N el2d1 s P1).mesh.nextKey ≤
          ((subdivideEdges N el2d2 P2
            (between.foldl (fun st w => processPrism N w.1 st w.2)
              (processPrism N el2d1 s P1))).2.getD b []).getD j 0 ∧
      ((subdivideEdges N el2d2 P2
          (between.foldl (fun st w => processPrism N w.1 st w.2)
            (processPrism N el2d1 s P1))).2.getD b []).getD j 0 ≠
        ((subdivideEdges N el2d1 P1 s).2.getD a []).getD j 0) ∧
    (∀ (el2d : Elem2d) (st : SubdivState), 0 < st.hashtable.table.length →
      (subdivideEdge N el2d (P2.EdHd (b + 3)) st).1.hashtable.content (P2.EdHd (b + 3)).key =
        some (subdivideEdge N el2d (P2.EdHd (b + 3)) st).2) ∧
    (∀ j : Nat, 1 ≤ j → j < N →
      (between.foldl (fun st w => processPrism N w.1 st w.2)
          (processPrism N el2d1 s P1)).mesh.nextKey ≤
        ((subdivideEdges N el2d2 P2
          (between.foldl (fun st w => processPrism N w.1 st w.2)
            (processPrism N el2d1 s P1))).2.getD b []).getD j 0 ∧
      ((subdivideEdges N el2d2 P2
          (between.foldl (fun st w => processPrism N w.1 st w.2)
            (processPrism N el2d1 s P1))).2.getD b []).getD j 0 <
        (subdivideEdges N el2d2 P2
          (between.foldl (fun st w => processPrism N w.1 st w.2)
            (processPrism N el2d1 s P1))).1.mesh.nextKey) := by
  have r1 := subdivideEdges_rows N el2d1 P1 s a ha
  have r2 := subdivideEdges_rows N el2d2 P2
    (between.foldl (fun st w => processPrism N w.1 st w.2) (processPrism N el2d1 s P1)) b hb
  have hmono := foldl_processPrism_nextKey_le N between (processPrism N el2d1 s P1)
  have hnext := (processPrism_nodes N el2d1 P1 s).2.1
  rw [hshared] at r1
  refine ⟨⟨r1.2.1 (by omega), r1.2.2.1⟩, ⟨r2.2.1 (by omega), r2.2.2.1⟩, ?_, ?_, ?_⟩
  · intro j h1 h2
    have e1 := r1.2.2.2 j h1 h2
    have e2 := r2.2.2.2 j h1 h2
    have ha' : (a : Int) * ((N - 1 : Nat) : Int) ≤ 2 * ((N - 1 : Nat) : Int) := by
      have : (a : Int) ≤ 2 := by omega
      exact Int.mul_le_mul_of_nonneg_right this (by omega)
    have hb' : (0 : Int) ≤ (b : Int) * ((N - 1 : Nat) : Int) :=
      Int.mul_nonneg (by omega) (by omega)
    have hlt : ((subdivideEdges N el2d1 P1 s).2.getD a []).getD j 0 <
        (processPrism N el2d1 s P1).mesh.nextKey := by
      rw [e1, hnext]; omega
    have hle : (processPrism N el2d1 s P1).mesh.nextKey ≤
        ((subdivideEdges N el2d2 P2
          (between.foldl (fun st w => processPrism N w.1 st w.2)
            (processPrism N el2d1 s P1))).2.getD b []).getD j 0 := by
      rw [e2]; omega
    exact ⟨hlt, hle, by omega⟩
  · intro el2d st hst
    rw [(subdivideEdge_mesh N el2d (P2.EdHd (b + 3)) st).2.2.2]
    exact content_Update_self _ _ _ hst
  · intro j h1 h2
    have e2 := r2.2.2.2 j h1 h2
    have hnext2 := (subdivideEdges_mesh N el2d2 P2
      (between.foldl (fun st w => processPrism N w.1 st w.2)
        (processPrism N el2d1 s P1))).2.1
    have hb0 : (0 : Int) ≤ (b : Int) * ((N - 1 : Nat) : Int) :=
      Int.mul_nonneg (by omega) (by omega)
    have hb2 : (b : Int) * ((N - 1 : Nat) : Int) ≤ 2 * ((N - 1 : Nat) : Int) := by
      have : (b : Int) ≤ 2 := by omega
      exact Int.mul_le_mul_of_nonneg_right this (by omega)
    rw [e2, hnext2]
    constructor <;> omega

theorem shared_edge_row_rebuilt_witness :
    exPrism1.EdHd (1 + 3) = exPrism2.EdHd (0 + 3) ∧
    ((subdivideEdges 3 exFace2 exPrism2
        (([] : List (Elem2d × Elem3d)).foldl (fun st w => processPrism 3 w.1 st w.2)
          (processPrism 3 exFace1 exStart exPrism1))).2.getD 0 []).getD 1 0 ≠
      ((subdivideEdges 3 exFace1 exPrism1 exStart).2.getD 1 []).getD 1 0 :=
  ⟨by decide,
   ((shared_edge_row_rebuilt 3 (by decide) exFace1 exFace2 exPrism1 exPrism2 [] exStart 1 0
      (by decide) (by decide) (by decide)).2.2.1 1 (by decide) (by decide)).2.2⟩

/-- C2: processing one prism adjacent to a boundary-layer face with any division count `N`
(in particular `N ≥ 2`, and `N = 3` as in `main`) replaces the stored 3D elements by the old ones without the original
prism followed by exactly `N` new prisms, and appends to the nodes exactly `N - 1` new nodes
for each of the through-thickness edges 3, 4, 5 (interpolated between the endpoints of that
edge), and nothing else. -/
theorem processPrism_adds_N_prisms (N : Nat) (el2d : Elem2d) (prism : Elem3d)
    (s : SubdivState) (hkey : prism.key < s.mesh.nextKey) :
    (processPrism N el2d s prism).mesh.elem3d =
      s.mesh.elem3d.filter (fun e => decide (e.key ≠ prism.key)) ++
        (List.range N).map (fun (i : Nat) =>
          (⟨s.mesh.nextKey + 3 * ((N - 1 : Nat) : Int) + (i : Int),
            prismnodes (subdivideEdges N el2d prism s).2 i⟩ : Elem3dData)) ∧
    (processPrism N el2d s prism).mesh.elem3d.length =
      (s.mesh.elem3d.filter (fun e => decide (e.key ≠ prism.key))).length + N ∧
    (∀ e ∈ (processPrism N el2d s prism).mesh.elem3d, e.key ≠ prism.key) ∧
    (processPrism N el2d s prism).mesh.nodes =
      s.mesh.nodes ++
        (List.range (N - 1)).map (fun (j : Nat) =>
          (⟨s.mesh.nextKey + (j : Int),
            interpolated N (baseNode el2d (prism.EdHd 3)).pos
              (topNode el2d (prism.EdHd 3)).pos j⟩ : Node)) ++
        (List.range (N - 1)).map (fun (j : Nat) =>
          (⟨s.mesh.nextKey + ((N - 1 : Nat) : Int) + (j : Int),
            interpolated N (baseNode el2d (prism.EdHd 4)).pos
              (topNode el2d (prism.EdHd 4)).pos j⟩ : Node)) ++
        (List.range (N - 1)).map (fun (j : Nat) =>
          (⟨s.mesh.nextKey + 2 * ((N - 1 : Nat) : Int) + (j : Int),
            interpolated N (baseNode el2d (prism.EdHd 5)).pos
              (topNode el2d (prism.EdHd 5)).pos j⟩ : Node)) ∧
    (processPrism N el2d s prism).mesh.nodes.length = s.mesh.nodes.length + 3 * (N - 1) := by
  have he := processPrism_elem3d N el2d prism s hkey
  have hn := (processPrism_nodes N el2d prism s).1
  have hm := (subdivideEdges_mesh N el2d prism s).1
  refine ⟨he, ?_, ?_, hn.trans hm, ?_⟩
  · rw [he]; simp
  · intro e hmem
    rw [he] at hmem
    rcases List.mem_append.1 hmem with h | h
    · simpa using (List.mem_filter.1 h).2
    · obtain ⟨i, _, rfl⟩ := List.mem_map.1 h
      show s.mesh.nextKey + 3 * ((N - 1 : Nat) : Int) + (i : Int) ≠ prism.key
      omega
  · rw [hn, hm]
    simp only [List.length_append, List.length_map, List.length_range]
    omega

theorem processPrism_adds_N_prisms_witness :
    exPrism1.key < exStart.mesh.nextKey ∧
    (processPrism 3 exFace1 exStart exPrism1).mesh.elem3d.length =
      (exStart.mesh.elem3d.filter (fun e => decide (e.key ≠ exPrism1.key))).length + 3 ∧
    (processPrism 3 exFace1 exStart exPrism1).mesh.nodes.length =
      exStart.mesh.nodes.length + 3 * (3 - 1) :=
  ⟨by decide,
   (processPrism_adds_N_prisms 3 exFace1 exPrism1 exStart (by decide)).2.1,
   (processPrism_adds_N_prisms 3 exFace1 exPrism1 exStart (by decide)).2.2.2.2⟩

/-- C3: for every processed prism and `N ≥ 2` the stack of new prisms spans the original: the
stored elements after processing are the old ones without the original prism followed by the
`N` new prisms with node lists `prismnodes nodearray i`; the first three nodes of new prism 0
are the base endpoints (slot 0) of edges 3, 4, 5, and the last three nodes of new prism
`N - 1` are their top endpoints (slot `N`). -/
theorem new_prisms_span (N : Nat) (hN : 2 ≤ N) (el2d : Elem2d) (prism : Elem3d)
    (s : SubdivState) (hkey : prism.key < s.mesh.nextKey) :
    (processPrism N el2d s prism).mesh.elem3d =
      s.mesh.elem3d.filter (fun e => decide (e.key ≠ prism.key)) ++
        (List.range N).map (fun (i : Nat) =>
          (⟨s.mesh.nextKey + 3 * ((N - 1 : Nat) : Int) + (i : Int),
            prismnodes (subdivideEdges N el2d prism s).2 i⟩ : Elem3dData)) ∧
    (prismnodes (subdivideEdges N el2d prism s).2 0).take 3 =
      [(baseNode el2d (prism.EdHd 3)).key, (baseNode el2d (prism.EdHd 4)).key,
       (baseNode el2d (prism.EdHd 5)).key] ∧
    (prismnodes (subdivideEdges N el2d prism s).2 (N - 1)).drop 3 =
      [(topNode el2d (prism.EdHd 3)).key, (topNode el2d (prism.EdHd 4)).key,
       (topNode el2d (prism.EdHd 5)).key] := by
  have r0 := subdivideEdges_rows N el2d prism s 0 (by decide)
  have r1 := subdivideEdges_rows N el2d prism s 1 (by decide)
  have r2 := subdivideEdges_rows N el2d prism s 2 (by decide)
  have hN1 : N - 1 + 1 = N := by omega
  refine ⟨processPrism_elem3d N el2d prism s hkey, ?_, ?_⟩
  · rw [prismnodes_eq]
    simp only [List.take_succ_cons, List.take_zero]
    rw [r0.2.1 (by omega), r1.2.1 (by omega), r2.2.1 (by omega)]
  · rw [prismnodes_eq]
    simp only [List.drop_succ_cons, List.drop_zero]
    rw [hN1, r0.2.2.1, r1.2.2.1, r2.2.2.1]

theorem new_prisms_span_witness :
    exPrism2.key < exStart.mesh.nextKey ∧
    (prismnodes (subdivideEdges 3 exFace2 exPrism2 exStart).2 0).take 3 = [2, 7, 3] ∧
    (prismnodes (subdivideEdges 3 exFace2 exPrism2 exStart).2 (3 - 1)).drop 3 = [5, 8, 6] :=
  ⟨by decide,
   (new_prisms_span 3 (by decide) exFace2 exPrism2 exStart (by decide)).2.1,
   (new_prisms_span 3 (by decide) exFace2 exPrism2 exStart (by decide)).2.2⟩

/-! ### Lemmas on the colour table and the linked lists -/

theorem colorOf_append_of_absent (codes : List (Int × YsColor)) (key k : Int) (col : YsColor)
    (h : codes.any (fun p => decide (p.1 = key)) = false) :
    colorOf (codes ++ [(key, col)]) k = if k = key then some col else colorOf codes k := by
  induction codes with
  | nil =>
    by_cases hk : k = key
    · simp [colorOf, hk]
    · have hk' : ¬ key = k := fun e => hk e.symm
      simp [colorOf, hk, hk']
  | cons p ps ih =>
    simp only [List.any_cons, Bool.or_eq_false_iff, decide_eq_false_iff_not] at h
    have ih' := ih h.2
    unfold colorOf at ih' ⊢
    by_cases hp : p.1 = k
    · have hk : ¬ k = key := fun e => h.1 (hp.trans e)
      simp [List.find?_cons, hp, hk]
    · simp only [List.cons_append, List.find?_cons, hp, decide_False]
      exact ih'

theorem colorOf_map_of_present (codes : List (Int × YsColor)) (key k : Int) (col : YsColor)
    (h : codes.any (fun p => decide (p.1 = key)) = true) :
    colorOf (codes.map (fun p => if p.1 = key then (key, col) else p)) k =
      if k = key then some col else colorOf codes k := by
  induction codes with
  | nil => simp at h
  | cons p ps ih =>
    unfold colorOf at ih ⊢
    by_cases hp : p.1 = key
    · by_cases hk : k = key
      · simp [List.find?_cons, hp, hk]
      · have hk' : ¬ key = k := fun e => hk e.symm
        simp only [List.map_cons, hp, if_true, List.find?_cons, hk', decide_False, hk, if_false]
        by_cases hany : ps.any (fun p => decide (p.1 = key)) = true
        · have := ih hany
          simp only [hk, if_false] at this
          exact this
        · have hnone : ∀ q ∈ ps, ¬ q.1 = key := by
            intro q hq hqk
            exact hany (List.any_eq_true.2 ⟨q, hq, by simpa using hqk⟩)
          have hmap : ps.map (fun p => if p.1 = key then (key, col) else p) = ps := by
            conv_rhs => rw [← List.map_id ps]
            apply List.map_congr_left
            intro q hq
            simp [hnone q hq]
          rw [hmap]
    · have hany : ps.any (fun p => decide (p.1 = key)) = true := by
        simpa [hp] using h
      have ih' := ih hany
      by_cases hpk : p.1 = k
      · have hk : ¬ k = key := fun e => hp (hpk.trans e)
        simp [List.find?_cons, hp, hpk, hk]
      · simp only [List.map_cons, hp, if_false, List.find?_cons, hpk, decide_False]
        exact ih'

theorem colorOf_colorUpdate (codes : List (Int × YsColor)) (key k : Int) (col : YsColor) :
    colorOf (colorUpdate codes key col) k = if k = key then some col else colorOf codes k := by
  unfold colorUpdate
  by_cases h : codes.any (fun p => decide (p.1 = key)) = true
  · rw [if_pos h]
    exact colorOf_map_of_present codes key k col h
  · rw [if_neg h]
    exact colorOf_append_of_absent codes key k col (Bool.eq_false_iff.2 h)

theorem colourLoop_foldl (col : YsColor) (k : Int) :
    ∀ (els : List Elem3d) (acc : List (Int × YsColor) × Int),
      colorOf (els.foldl (fun acc el => (colorUpdate acc.1 el.key col, el.key)) acc).1 k =
          (if k ∈ els.map (fun el => el.key) then some col else colorOf acc.1 k) ∧
      (els.foldl (fun acc el => (colorUpdate acc.1 el.key col, el.key)) acc).2 =
          (els.map (fun el => el.key)).getLastD acc.2 := by
  intro els
  induction els with
  | nil => intro acc; simp
  | cons e es ih =>
    intro acc
    obtain ⟨h1, h2⟩ := ih (colorUpdate acc.1 e.key col, e.key)
    simp only [List.foldl_cons, List.map_cons, List.mem_cons]
    refine ⟨?_, ?_⟩
    · rw [h1]
      simp only [colorOf_colorUpdate]
      by_cases hk : k = e.key
      · simp [hk]
      · simp [hk]
    · rw [h2]
      exact (List.getLastD_cons _ _ _).symm

theorem colourLoop_colorOf (col : YsColor) (els : List Elem3d) (codes : List (Int × YsColor))
    (k : Int) :
    colorOf (colourLoop col els codes).1 k =
      if k ∈ els.map (fun el => el.key) then some col else colorOf codes k :=
  (colourLoop_foldl col k els (codes, 0)).1

theorem colourLoop_key (col : YsColor) (els : List Elem3d) (codes : List (Int × YsColor)) :
    (colourLoop col els codes).2 = (els.map (fun el => el.key)).getLastD 0 :=
  (colourLoop_foldl col 0 els (codes, 0)).2

theorem map_key_modify_ring (p : Ptr) :
    ∀ (cells : List Ring_node) (i : Nat),
      (cells.modify (fun c => { c with next := p }) i).map Ring_node.key =
        cells.map Ring_node.key := by
  intro cells
  induction cells with
  | nil => intro i; simp
  | cons c cs ih =>
    intro i
    cases i with
    | zero => simp
    | succ n => simp [ih n]

theorem map_pair_modify_prismlist (p : Ptr) :
    ∀ (cells : List Prismlist_node) (i : Nat),
      (cells.modify (fun c => { c with next := p }) i).map (fun c => (c.key_r, c.key_g)) =
        cells.map (fun c => (c.key_r, c.key_g)) := by
  intro cells
  induction cells with
  | nil => intro i; simp
  | cons c cs ih =>
    intro i
    cases i with
    | zero => simp
    | succ n => simp [ih n]

theorem Ring_addEdge_keys (r : Ring) (key : Int) :
    (r.addEdge key).cells.map Ring_node.key = r.cells.map Ring_node.key ++ [key] ∧
    (r.addEdge key).num_edges = r.num_edges + 1 := by
  unfold Ring.addEdge
  by_cases h : r.root = Ptr.null
  · simp [h]
  · rw [if_neg h]
    refine ⟨?_, rfl⟩
    simp only [List.map_append, List.map_cons, List.map_nil]
    congr 1
    split
    · exact map_key_modify_ring _ _ _
    · rfl

theorem Prismlist_addPrism_pairs (p : Prismlist) (key1 key2 : Int) :
    (p.addPrism key1 key2).cells.map (fun c => (c.key_r, c.key_g)) =
        p.cells.map (fun c => (c.key_r, c.key_g)) ++ [(key1, key2)] ∧
    (p.addPrism key1 key2).num_prisms = p.num_prisms + 1 := by
  unfold Prismlist.addPrism
  by_cases h : p.root = Ptr.null
  · simp [h]
  · rw [if_neg h]
    refine ⟨?_, rfl⟩
    simp only [List.map_append, List.map_cons, List.map_nil]
    congr 1
    split
    · exact map_pair_modify_prismlist _ _ _
    · rfl

/-! ### Lemmas on the classifier loops -/

theorem neighborStep_of_cos_ge (mesh : YsMesh) (fgHd_key : Int) (el2d : Elem2d) (edge : Edge)
    (neighbor : Elem2d) (s : FgState) (h : 1 / 2 ≤ cos_theta el2d neighbor) :
    (neighborStep mesh fgHd_key el2d edge neighbor s).1 = s := by
  unfold neighborStep
  cases mesh.FindFaceGroupFromElem2d neighbor with
  | none => rfl
  | some fg =>
    have hs : isSharp fgHd_key fg el2d neighbor = false := by
      unfold isSharp
      have hd : decide (cos_theta el2d neighbor < 1 / 2) = false :=
        decide_eq_false (not_lt.2 h)
      rw [hd, Bool.and_false]
    simp only [hs]
    split <;> rfl

theorem neighborLoop_of_cos_ge (mesh : YsMesh) (fgHd_key : Int) (el2d : Elem2d) (edge : Edge) :
    ∀ (neighbors : List Elem2d) (s : FgState),
      (∀ neighbor ∈ neighbors, 1 / 2 ≤ cos_theta el2d neighbor) →
      neighborLoop mesh fgHd_key el2d edge neighbors s = s := by
  intro neighbors
  induction neighbors with
  | nil => intro s _; rfl
  | cons g gs ih =>
    intro s h
    have hg := neighborStep_of_cos_ge mesh fgHd_key el2d edge g s (h g (by simp))
    have hgs := ih s (fun x hx => h x (by simp [hx]))
    unfold neighborLoop
    simp only [hg]
    split
    · rfl
    · exact hgs

theorem foldl_eq_self_of_forall {α β : Type} (f : α → β → α) :
    ∀ (l : List β) (a : α), (∀ b ∈ l, ∀ x, f x b = x) → l.foldl f a = a := by
  intro l
  induction l with
  | nil => intro a _; rfl
  | cons b bs ih =>
    intro a h
    rw [List.foldl_cons, h b (by simp) a]
    exact ih a (fun c hc => h c (by simp [hc]))

theorem faceStep_of_cos_ge (mesh : YsMesh) (fgHd_key : Int) (el2d : Elem2d) (s : FgState)
    (h : ∀ edge ∈ el2d.edges, ∀ neighbor ∈ mesh.FindElem2dFromNode edge.nd0,
      1 / 2 ≤ cos_theta el2d neighbor) :
    faceStep mesh fgHd_key s el2d = s := by
  unfold faceStep
  apply foldl_eq_self_of_forall
  intro edge he x
  exact neighborLoop_of_cos_ge mesh fgHd_key el2d edge _ x (h edge he)

theorem facegroupStep_of_cos_ge (mesh : YsMesh) (st : ColorState) (fg : FaceGroup)
    (h : ∀ el2d ∈ fg.faces, ∀ edge ∈ el2d.edges,
      ∀ neighbor ∈ mesh.FindElem2dFromNode edge.nd0, 1 / 2 ≤ cos_theta el2d neighbor) :
    facegroupStep mesh st fg = st := by
  have hloop : faceLoop mesh fg st.elem3dColorCode =
      { elem3dColorCode := st.elem3dColorCode, ring := Ring.new, prismlist := Prismlist.new,
        facegroup_is_valid := false } := by
    unfold faceLoop
    apply foldl_eq_self_of_forall
    intro el2d hf x
    exact faceStep_of_cos_ge mesh fg.key el2d x (h el2d hf)
  unfold facegroupStep
  by_cases hl : 0 < fg.nLayer
  · simp only [hl, if_true, hloop]
    rfl
  · simp only [hl, if_false]

theorem neighborStep_of_sharp (mesh : YsMesh) (fgHd_key : Int) (el2d : Elem2d) (edge : Edge)
    (neighbor : Elem2d) (s : FgState) (fg : FaceGroup)
    (hfg : mesh.FindFaceGroupFromElem2d neighbor = some fg)
    (hconv : notConvex el2d neighbor = false)
    (hsharp : isSharp fgHd_key fg el2d neighbor = true) :
    neighborStep mesh fgHd_key el2d edge neighbor s = (sharpEdge el2d edge neighbor s, false) := by
  unfold neighborStep
  simp [hfg, hconv, hsharp]

/-! ### Claims on the classifier -/

/-- C8, evaluated on the corner of Scenario A (`exCorner`: two facegroups with `nLayer = 1`,
one triangle and one adjacent prism each, the triangles sharing the edge with key 53, convex,
`cos_theta = 0`): two elements end coloured, one green and one red, but the ring committed
for each facegroup holds two edge keys; the first ring also holds key 51, the edge from `O`
to `X`, whose endpoint `X` the other triangle does not use. -/
theorem scenarioA_rings_hold_two_keys :
    exCorner.faceGroups.map (fun fg => (fg.key, fg.nLayer, fg.faces.map (fun f => f.key))) =
      [(41, 1, [31]), (42, 1, [32])] ∧
    cos_theta exFaceF exFaceG = 0 ∧ notConvex exFaceF exFaceG = false ∧
    (ColorElements exCorner []).elem3dColorCode = [(21, YsColor.green), (22, YsColor.red)] ∧
    (ColorElements exCorner []).bl.cells.map (fun c => c.ring.keysFromRoot) =
      [[53, 51], [55, 53]] ∧
    (ColorElements exCorner []).bl.cells.map (fun c => c.ring.num_edges) = [2, 2] ∧
    exEdgeOX.key = 51 ∧ exFaceG.IsUsingNode exEdgeOX.nd1 = false := by
  decide!

/-- C9: a pair of a face and a neighbour with `|normal1 * normal2| ≥ 0.5` never triggers a
sharp edge: the neighbour step leaves the colour table, the ring, the prism list and
`facegroup_is_valid` as they were; and a facegroup all of whose enumerated pairs are of this
kind leaves the colour table and the registry as they were (no entry is committed). -/
theorem no_sharp_edge_of_cos_ge_half (mesh : YsMesh) :
    (∀ (fgHd_key : Int) (el2d : Elem2d) (edge : Edge) (neighbor : Elem2d) (s : FgState),
      1 / 2 ≤ |el2d.normal.dot neighbor.normal| →
      (neighborStep mesh fgHd_key el2d edge neighbor s).1 = s) ∧
    (∀ (fg : FaceGroup) (st : ColorState),
      (∀ el2d ∈ fg.faces, ∀ edge ∈ el2d.edges,
        ∀ neighbor ∈ mesh.FindElem2dFromNode edge.nd0,
          1 / 2 ≤ |el2d.normal.dot neighbor.normal|) →
      facegroupStep mesh st fg = st) :=
  ⟨fun fgHd_key el2d edge neighbor s h =>
      neighborStep_of_cos_ge mesh fgHd_key el2d edge neighbor s h,
   fun fg st h => facegroupStep_of_cos_ge mesh st fg h⟩

theorem no_sharp_edge_of_cos_ge_half_witness :
    (1 / 2 : ℚ) ≤ |exFaceF.normal.dot exFaceFlat.normal| ∧
    (neighborStep exFlat 41 exFaceF exEdgeYO exFaceFlat exFgStart).1 = exFgStart ∧
    facegroupStep exFlat { elem3dColorCode := [], bl := BL.new } ⟨41, 1, [exFaceF]⟩ =
      { elem3dColorCode := [], bl := BL.new } :=
  ⟨by decide!,
   (no_sharp_edge_of_cos_ge_half exFlat).1 41 exFaceF exEdgeYO exFaceFlat exFgStart (by decide!),
   (no_sharp_edge_of_cos_ge_half exFlat).2 ⟨41, 1, [exFaceF]⟩ _ (by decide!)⟩

/-- C10, as stated, fails: on `exTetCorner` the face `O X Y` triggers a sharp edge against its
neighbour `O Y Z`, the tetrahedron with key 23 is adjacent to both, and right after the step it
is tagged green, not red. -/
theorem shared_element_ends_green :
    (exTetCorner.FindFaceGroupFromElem2d exTetFaceG).map (fun fg => (fg.key, fg.nLayer)) =
      some (42, 1) ∧
    notConvex exTetFaceF exTetFaceG = false ∧ cos_theta exTetFaceF exTetFaceG < 1 / 2 ∧
    (neighborStep exTetCorner 41 exTetFaceF exEdgeOX exTetFaceG exFgStart).1.facegroup_is_valid
      = true ∧
    exTetFaceF.elem3d.map (fun el => el.key) = [23] ∧
    colorOf (neighborStep exTetCorner 41 exTetFaceF exEdgeOX exTetFaceG
      exFgStart).1.elem3dColorCode 23 = some YsColor.green ∧
    colorOf (neighborStep exTetCorner 41 exTetFaceF exEdgeOX exTetFaceG
      exFgStart).1.elem3dColorCode 23 ≠ some YsColor.red := by
  decide!

/-- C10, amended: whenever face `el2d` triggers a sharp edge against `neighbor` (the neighbour
has a facegroup other than the current one with `nLayer > 0`, the pair passes the convexity
test and `cos_theta < 0.5`), right after that step every 3D element adjacent to `neighbor` is
tagged green, every 3D element adjacent to `el2d` and not to `neighbor` is tagged red, the
colour of every other element is as before, exactly one key (that of the edge) has been
appended to the ring and exactly one pair (the keys of the last element of each colouring
loop, 0 when there is none) to the prism list, and the neighbour loop goes on. -/
theorem sharp_edge_step (mesh : YsMesh) (fgHd_key : Int) (el2d : Elem2d) (edge : Edge)
    (neighbor : Elem2d) (s : FgState) (fg : FaceGroup)
    (hfg : mesh.FindFaceGroupFromElem2d neighbor = some fg)
    (hconv : notConvex el2d neighbor = false)
    (hkey : fg.key ≠ fgHd_key) (hlayer : 0 < fg.nLayer)
    (hcos : |el2d.normal.dot neighbor.normal| < 1 / 2) :
    (∀ el ∈ neighbor.elem3d,
      colorOf (neighborStep mesh fgHd_key el2d edge neighbor s).1.elem3dColorCode el.key =
        some YsColor.green) ∧
    (∀ el ∈ el2d.elem3d, (∀ el' ∈ neighbor.elem3d, el'.key ≠ el.key) →
      colorOf (neighborStep mesh fgHd_key el2d edge neighbor s).1.elem3dColorCode el.key =
        some YsColor.red) ∧
    (∀ k : Int, (∀ el ∈ el2d.elem3d, el.key ≠ k) → (∀ el ∈ neighbor.elem3d, el.key ≠ k) →
      colorOf (neighborStep mesh fgHd_key el2d edge neighbor s).1.elem3dColorCode k =
        colorOf s.elem3dColorCode k) ∧
    ((neighborStep mesh fgHd_key el2d edge neighbor s).1.ring.cells.map Ring_node.key =
        s.ring.cells.map Ring_node.key ++ [edge.key] ∧
      (neighborStep mesh fgHd_key el2d edge neighbor s).1.ring.num_edges =
        s.ring.num_edges + 1) ∧
    ((neighborStep mesh fgHd_key el2d edge neighbor s).1.prismlist.cells.map
          (fun c => (c.key_r, c.key_g)) =
        s.prismlist.cells.map (fun c => (c.key_r, c.key_g)) ++
          [((el2d.elem3d.map (fun el => el.key)).getLastD 0,
            (neighbor.elem3d.map (fun el => el.key)).getLastD 0)] ∧
      (neighborStep mesh fgHd_key el2d edge neighbor s).1.prismlist.num_prisms =
        s.prismlist.num_prisms + 1) ∧
    (neighborStep mesh fgHd_key el2d edge neighbor s).1.facegroup_is_valid = true ∧
    (neighborStep mesh fgHd_key el2d edge neighbor s).2 = false := by
  have hsharp : isSharp fgHd_key fg el2d neighbor = true := by
    unfold isSharp
    rw [decide_eq_true hkey, decide_eq_true hlayer,
      decide_eq_true (show cos_theta el2d neighbor < 1 / 2 from hcos)]
    rfl
  rw [neighborStep_of_sharp mesh fgHd_key el2d edge neighbor s fg hfg hconv hsharp]
  refine ⟨?_, ?_, ?_, ?_, ?_, rfl, rfl⟩
  · intro el hel
    show colorOf (colourLoop YsColor.green neighbor.elem3d _).1 el.key = _
    rw [colourLoop_colorOf, if_pos (List.mem_map_of_mem _ hel)]
  · intro el hel hne
    show colorOf (colourLoop YsColor.green neighbor.elem3d _).1 el.key = _
    have hnot : el.key ∉ neighbor.elem3d.map (fun el => el.key) := by
      intro hmem
      obtain ⟨el', hel', hk⟩ := List.mem_map.1 hmem
      exact hne el' hel' hk
    rw [colourLoop_colorOf, if_neg hnot, colourLoop_colorOf,
      if_pos (List.mem_map_of_mem _ hel)]
  · intro k h1 h2
    show colorOf (colourLoop YsColor.green neighbor.elem3d _).1 k = _
    have hn1 : k ∉ el2d.elem3d.map (fun el => el.key) := by
      intro hmem
      obtain ⟨el', hel', hk⟩ := List.mem_map.1 hmem
      exact h1 el' hel' hk
    have hn2 : k ∉ neighbor.elem3d.map (fun el => el.key) := by
      intro hmem
      obtain ⟨el', hel', hk⟩ := List.mem_map.1 hmem
      exact h2 el' hel' hk
    rw [colourLoop_colorOf, if_neg hn2, colourLoop_colorOf, if_neg hn1]
  · exact Ring_addEdge_keys s.ring edge.key
  · have := Prismlist_addPrism_pairs s.prismlist
      (colourLoop YsColor.red el2d.elem3d s.elem3dColorCode).2
      (colourLoop YsColor.green neighbor.elem3d
        (colourLoop YsColor.red el2d.elem3d s.elem3dColorCode).1).2
    rw [← colourLoop_key YsColor.red el2d.elem3d s.elem3dColorCode,
      ← colourLoop_key YsColor.green neighbor.elem3d
        (colourLoop YsColor.red el2d.elem3d s.elem3dColorCode).1]
    exact this

theorem sharp_edge_step_witness :
    colorOf (neighborStep exCorner 41 exFaceF exEdgeYO exFaceG exFgStart).1.elem3dColorCode
        exElemG.key = some YsColor.green ∧
    colorOf (neighborStep exCorner 41 exFaceF exEdgeYO exFaceG exFgStart).1.elem3dColorCode
        exElemF.key = some YsColor.red ∧
    (neighborStep exCorner 41 exFaceF exEdgeYO exFaceG exFgStart).1.ring.num_edges = 0 + 1 :=
  ⟨(sharp_edge_step exCorner 41 exFaceF exEdgeYO exFaceG exFgStart ⟨42, 1, [exFaceG]⟩ rfl
      (by decide!) (by decide) (by decide) (by decide!)).1 exElemG (by simp [exFaceG]),
   (sharp_edge_step exCorner 41 exFaceF exEdgeYO exFaceG exFgStart ⟨42, 1, [exFaceG]⟩ rfl
      (by decide!) (by decide) (by decide) (by decide!)).2.1 exElemF (by simp [exFaceF])
      (by simp [exFaceG, exElemG, exElemF]),
   (sharp_edge_step exCorner 41 exFaceF exEdgeYO exFaceG exFgStart ⟨42, 1, [exFaceG]⟩ rfl
      (by decide!) (by decide) (by decide) (by decide!)).2.2.2.1.2⟩

/-! ### Further claims on the hashtable -/

theorem Update_getD_ne {V : Type} (t : HashTable V) (k : Int) (v : Option V) (i : Nat)
    (hi : hashIdx k t.table.length ≠ i) :
    (t.Update k v).table.getD i [] = t.table.getD i [] := by
  cases hb : overwrite k v (t.bucketOf k) with
  | none => rw [Update_of_none t k v hb]; exact getD_set_ne _ _ _ _ _ hi
  | some b => rw [Update_of_some t k v b hb]; exact getD_set_ne _ _ _ _ _ hi

/-- C19: frame property of the hashtable. For every table state and keys `k ≠ k'`,
`Update k v` leaves `content k'` unchanged, also when both keys fall in the same bucket. -/
theorem Update_frame {V : Type} (t : HashTable V) (k k' : Int) (v : Option V) (h : k ≠ k') :
    (t.Update k v).content k' = t.content k' :=
  content_Update_ne t k k' v h

theorem Update_frame_witness :
    (1 : Int) ≠ 8 ∧ hashIdx 1 7 = hashIdx 8 7 ∧
    ((HashTable.run [Op.update 8 (some 6)] : HashTable Nat).Update 1 (some 5)).content 8 =
      (HashTable.run [Op.update 8 (some 6)] : HashTable Nat).content 8 :=
  ⟨by decide, by decide, Update_frame _ 1 8 (some 5) (by decide)⟩

/-- C20: in every reachable state the table has 7 buckets; for every key, negative keys
included, the bucket index used by `Update` and `content` is `(key mod 2^64) mod 7`, below
the table size; for a 64-bit signed key, `key mod 2^64` is the key itself when it is not
negative and `key + 2^64` otherwise; `content` reads the bucket at that index and `Update`
leaves the number of buckets and every other bucket as they were. -/
theorem bucket_index_in_bounds {V : Type} (ops : List (Op V)) (key : Int) :
    (HashTable.run ops).table.length = 7 ∧
    hashIdx key (HashTable.run ops).table.length = (key % 2 ^ 64).toNat % 7 ∧
    hashIdx key (HashTable.run ops).table.length < (HashTable.run ops).table.length ∧
    (-2 ^ 63 ≤ key → key < 2 ^ 63 →
      (key % 2 ^ 64).toNat = if 0 ≤ key then key.toNat else (key + 2 ^ 64).toNat) ∧
    (HashTable.run ops).content key =
      lookup key ((HashTable.run ops).table.getD ((key % 2 ^ 64).toNat % 7) []) ∧
    (∀ v : Option V, ((HashTable.run ops).Update key v).table.length = 7 ∧
      ∀ i : Nat, i ≠ (key % 2 ^ 64).toNat % 7 →
        ((HashTable.run ops).Update key v).table.getD i [] =
          (HashTable.run ops).table.getD i []) := by
  have hinv := Inv_run ops
  have hsize : (HashTable.run ops).table.length = 7 := hinv.size
  have hidx : hashIdx key (HashTable.run ops).table.length = (key % 2 ^ 64).toNat % 7 := by
    rw [hsize]; rfl
  refine ⟨hsize, hidx, ?_, ?_, ?_, ?_⟩
  · rw [hidx, hsize]
    exact Nat.mod_lt _ (by decide)
  · intro hlo hhi
    by_cases h0 : 0 ≤ key
    · rw [if_pos h0, Int.emod_eq_of_lt h0 (by omega)]
    · rw [if_neg h0]
      have : key % 2 ^ 64 = key + 2 ^ 64 := by omega
      rw [this]
  · unfold HashTable.content
    rw [hidx]
  · intro v
    refine ⟨by rw [Update_table_length]; exact hsize, ?_⟩
    intro i hi
    apply Update_getD_ne
    rw [hidx]
    exact fun e => hi e.symm

theorem bucket_index_in_bounds_witness :
    hashIdx (-1) (HashTable.run [Op.update (-1) (some 7)] : HashTable Nat).table.length = 1 ∧
    (HashTable.run [Op.update (-1) (some 7)] : HashTable Nat).table.length = 7 :=
  ⟨(bucket_index_in_bounds [Op.update (-1) (some 7)] (-1)).2.1.trans (by decide),
   (bucket_index_in_bounds [Op.update (-1) (some 7)] (-1)).1⟩

/-! ### Further claims on the subdivision pass -/

/-- C14: for every processed prism, every division count `N` and every `i < N`, new prism
`i` has as its first three nodes the slot-`i` entries of the rows of edges 3, 4, 5 in that
order and as its last three nodes their slot-`i + 1` entries in the same order; hence the last
three nodes of new prism `i` are the first three nodes of new prism `i + 1`. -/
theorem new_prism_slices (N : Nat) (el2d : Elem2d) (prism : Elem3d) (s : SubdivState)
    (hkey : prism.key < s.mesh.nextKey) :
    (processPrism N el2d s prism).mesh.elem3d =
      s.mesh.elem3d.filter (fun e => decide (e.key ≠ prism.key)) ++
        (List.range N).map (fun (i : Nat) =>
          (⟨s.mesh.nextKey + 3 * ((N - 1 : Nat) : Int) + (i : Int),
            [((subdivideEdges N el2d prism s).2.getD 0 []).getD i 0,
             ((subdivideEdges N el2d prism s).2.getD 1 []).getD i 0,
             ((subdivideEdges N el2d prism s).2.getD 2 []).getD i 0,
             ((subdivideEdges N el2d prism s).2.getD 0 []).getD (i + 1) 0,
             ((subdivideEdges N el2d prism s).2.getD 1 []).getD (i + 1) 0,
             ((subdivideEdges N el2d prism s).2.getD 2 []).getD (i + 1) 0]⟩ : Elem3dData)) ∧
    ∀ i : Nat, (prismnodes (subdivideEdges N el2d prism s).2 i).drop 3 =
      (prismnodes (subdivideEdges N el2d prism s).2 (i + 1)).take 3 := by
  refine ⟨?_, ?_⟩
  · rw [processPrism_elem3d N el2d prism s hkey]
    simp only [prismnodes_eq]
  · intro i
    rw [prismnodes_eq, prismnodes_eq]
    rfl

theorem new_prism_slices_witness :
    exPrism1.key < exStart.mesh.nextKey ∧
    (processPrism 3 exFace1 exStart exPrism1).mesh.elem3d =
      [⟨22, [2, 7, 3, 5, 8, 6]⟩, ⟨106, [1, 2, 3, 100, 102, 104]⟩,
       ⟨107, [100, 102, 104, 101, 103, 105]⟩, ⟨108, [101, 103, 105, 4, 5, 6]⟩] :=
  ⟨by decide, (new_prism_slices 3 exFace1 exPrism1 exStart (by decide)).1.trans (by decide)⟩

/-- C15: orientation consistency. For a through-thickness edge (local index `a + 3`, `a < 3`)
of which the face uses exactly one endpoint, slot 0 of its row is the key of the endpoint used
by the face and slot `N` the key of the endpoint not used by it; the choice does not depend on
the stored order of the two endpoints. -/
theorem base_is_endpoint_on_face (N : Nat) (hN : 1 ≤ N) (el2d : Elem2d) (prism : Elem3d)
    (s : SubdivState) (a : Nat) (ha : a < 3)
    (hone : el2d.IsUsingNode (prism.EdHd (a + 3)).nd0 ≠
      el2d.IsUsingNode (prism.EdHd (a + 3)).nd1) :
    ((subdivideEdges N el2d prism s).2.getD a []).getD 0 0 =
      (baseNode el2d (prism.EdHd (a + 3))).key ∧
    ((subdivideEdges N el2d prism s).2.getD a []).getD N 0 =
      (topNode el2d (prism.EdHd (a + 3))).key ∧
    el2d.IsUsingNode (baseNode el2d (prism.EdHd (a + 3))) = true ∧
    el2d.IsUsingNode (topNode el2d (prism.EdHd (a + 3))) = false ∧
    baseNode el2d ⟨(prism.EdHd (a + 3)).key, (prism.EdHd (a + 3)).nd1,
        (prism.EdHd (a + 3)).nd0⟩ = baseNode el2d (prism.EdHd (a + 3)) ∧
    topNode el2d ⟨(prism.EdHd (a + 3)).key, (prism.EdHd (a + 3)).nd1,
        (prism.EdHd (a + 3)).nd0⟩ = topNode el2d (prism.EdHd (a + 3)) := by
  have r := subdivideEdges_rows N el2d prism s a ha
  refine ⟨r.2.1 hN, r.2.2.1, ?_, ?_, ?_, ?_⟩
  all_goals
    unfold baseNode topNode at *
    cases h0 : el2d.IsUsingNode (prism.EdHd (a + 3)).nd0 <;>
    cases h1 : el2d.IsUsingNode (prism.EdHd (a + 3)).nd1 <;>
    simp_all

theorem base_is_endpoint_on_face_witness :
    exFace1.IsUsingNode (exPrism1.EdHd (1 + 3)).nd0 ≠
      exFace1.IsUsingNode (exPrism1.EdHd (1 + 3)).nd1 ∧
    ((subdivideEdges 3 exFace1 exPrism1 exStart).2.getD 1 []).getD 0 0 = exB0.key ∧
    ((subdivideEdges 3 exFace1 exPrism1 exStart).2.getD 1 []).getD 3 0 = exB1.key :=
  ⟨by decide,
   (base_is_endpoint_on_face 3 (by decide) exFace1 exPrism1 exStart 1 (by decide)
      (by decide)).1,
   (base_is_endpoint_on_face 3 (by decide) exFace1 exPrism1 exStart 1 (by decide)
      (by decide)).2.1⟩

/-! ### Further claims on the classifier -/

theorem neighborLoop_cons_of_null (mesh : YsMesh) (fgHd_key : Int) (el2d : Elem2d)
    (edge : Edge) (neighbor : Elem2d) (rest : List Elem2d) (s : FgState)
    (h : mesh.FindFaceGroupFromElem2d neighbor = none) :
    neighborStep mesh fgHd_key el2d edge neighbor s = (s, false) ∧
    neighborLoop mesh fgHd_key el2d edge (neighbor :: rest) s =
      neighborLoop mesh fgHd_key el2d edge rest s := by
  have hstep : neighborStep mesh fgHd_key el2d edge neighbor s = (s, false) := by
    unfold neighborStep
    rw [h]
  refine ⟨hstep, ?_⟩
  conv_lhs => unfold neighborLoop
  simp [hstep]

/-- C17, as stated, fails: in `exCornerInternal` the neighbours enumerated for the edge from
`O` to `X` of triangle 31 are the triangles 31, 34, 32; triangle 34 has no facegroup, and
triangle 32, enumerated after it, still triggers a sharp edge and colours two elements. -/
theorem null_facegroup_does_not_stop_the_loop :
    (exCornerInternal.FindElem2dFromNode exEdgeOX.nd0).map (fun g => g.key) = [31, 34, 32] ∧
    (exCornerInternal.FindFaceGroupFromElem2d exFaceH).isNone = true ∧
    (edgeStep exCornerInternal 41 exFaceF exFgStart exEdgeOX).facegroup_is_valid = true ∧
    (edgeStep exCornerInternal 41 exFaceF exFgStart exEdgeOX).elem3dColorCode =
      [(21, YsColor.red), (22, YsColor.green)] ∧
    (edgeStep exCornerInternal 41 exFaceF exFgStart exEdgeOX).ring.keysFromRoot = [51] := by
  decide!

/-- C17, amended: when a neighbour has a null owning facegroup the classifier skips it, the
step changes nothing and does not leave the loop, and the remaining neighbours of the edge are
examined as if the neighbour had not been enumerated. -/
theorem null_facegroup_is_skipped (mesh : YsMesh) (fgHd_key : Int) (el2d : Elem2d)
    (edge : Edge) (neighbor : Elem2d) (rest : List Elem2d) (s : FgState)
    (h : mesh.FindFaceGroupFromElem2d neighbor = none) :
    neighborStep mesh fgHd_key el2d edge neighbor s = (s, false) ∧
    neighborLoop mesh fgHd_key el2d edge (neighbor :: rest) s =
      neighborLoop mesh fgHd_key el2d edge rest s :=
  neighborLoop_cons_of_null mesh fgHd_key el2d edge neighbor rest s h

theorem null_facegroup_is_skipped_witness :
    exCornerInternal.FindFaceGroupFromElem2d exFaceH = none ∧
    neighborLoop exCornerInternal 41 exFaceF exEdgeOX [exFaceH, exFaceG] exFgStart =
      neighborLoop exCornerInternal 41 exFaceF exEdgeOX [exFaceG] exFgStart :=
  ⟨rfl, (null_facegroup_is_skipped exCornerInternal 41 exFaceF exEdgeOX exFaceH [exFaceG]
    exFgStart rfl).2⟩

/-! ### Lemmas on the chains of the linked lists -/

theorem Ring_walkPrev_eq (cells : List Ring_node) :
    ∀ (fuel : Nat) (p : Ptr),
      Ring.walkPrev cells fuel p = walkPrevOf Ring_node.prev Ring_node.key cells fuel p := by
  intro fuel
  induction fuel with
  | zero => intro p; rfl
  | succ n ih =>
    intro p
    cases p with
    | null => rfl
    | unset => rfl
    | node i =>
      simp only [Ring.walkPrev, walkPrevOf]
      cases cells[i]? with
      | none => rfl
      | some c => simp only [ih]

theorem Prismlist_walkPrev_eq (cells : List Prismlist_node) :
    ∀ (fuel : Nat) (p : Ptr),
      Prismlist.walkPrev cells fuel p =
        walkPrevOf Prismlist_node.prev (fun c => (c.key_r, c.key_g)) cells fuel p := by
  intro fuel
  induction fuel with
  | zero => intro p; rfl
  | succ n ih =>
    intro p
    cases p with
    | null => rfl
    | unset => rfl
    | node i =>
      simp only [Prismlist.walkPrev, walkPrevOf]
      cases cells[i]? with
      | none => rfl
      | some c => simp only [ih]

theorem BL_walkPrev_eq (cells : List BL_node) :
    ∀ (fuel : Nat) (p : Ptr),
      BL.walkPrev cells fuel p =
        walkPrevOf BL_node.prev (fun c => (c.ring, c.prismlist)) cells fuel p := by
  intro fuel
  induction fuel with
  | zero => intro p; rfl
  | succ n ih =>
    intro p
    cases p with
    | null => rfl
    | unset => rfl
    | node i =>
      simp only [BL.walkPrev, walkPrevOf]
      cases cells[i]? with
      | none => rfl
      | some c => simp only [ih]

theorem walkPrevOf_of_chained {α β : Type} (prevOf : α → Ptr) (valOf : α → β)
    (cells : List α) (root : Ptr) (h : Chained prevOf cells root) :
    ∀ (i : Nat), i < cells.length → ∀ fuel : Nat, i + 1 ≤ fuel →
      walkPrevOf prevOf valOf cells fuel (Ptr.node i) =
        ((cells.take (i + 1)).map valOf).reverse := by
  intro i
  induction i with
  | zero =>
    intro hi fuel hf
    obtain ⟨f, rfl⟩ : ∃ f, fuel = f + 1 := ⟨fuel - 1, by omega⟩
    have hc : cells[0]? = some cells[0] := List.getElem?_eq_getElem hi
    have hp := h.1 0 cells[0] hc
    simp only [if_true] at hp
    simp only [walkPrevOf, hc, hp]
    have hnull : walkPrevOf prevOf valOf cells f Ptr.null = [] := by
      cases f <;> rfl
    rw [hnull, List.take_succ, hc]
    rfl
  | succ n ih =>
    intro hi fuel hf
    obtain ⟨f, rfl⟩ : ∃ f, fuel = f + 1 := ⟨fuel - 1, by omega⟩
    have hc : cells[n + 1]? = some cells[n + 1] := List.getElem?_eq_getElem hi
    have hp := h.1 (n + 1) cells[n + 1] hc
    simp only [Nat.succ_ne_zero, if_false, Nat.add_sub_cancel] at hp
    simp only [walkPrevOf, hc, hp]
    rw [ih (by omega) f (by omega)]
    rw [List.take_succ (n := n + 1), hc, List.map_append, List.reverse_append]
    rfl

theorem walkPrevOf_root {α β : Type} (prevOf : α → Ptr) (valOf : α → β)
    (cells : List α) (root : Ptr) (h : Chained prevOf cells root) :
    walkPrevOf prevOf valOf cells cells.length root = (cells.map valOf).reverse := by
  by_cases hlen : cells.length = 0
  · have : cells = [] := List.length_eq_zero.1 hlen
    subst this
    rfl
  · have hroot := h.2
    rw [if_neg hlen] at hroot
    rw [hroot, walkPrevOf_of_chained prevOf valOf cells root h (cells.length - 1) (by omega)
      cells.length (by omega)]
    have : cells.length - 1 + 1 = cells.length := by omega
    rw [this, List.take_length]

theorem chained_nil {α : Type} (prevOf : α → Ptr) : Chained prevOf ([] : List α) Ptr.null := by
  refine ⟨?_, rfl⟩
  intro i c hc
  simp at hc

theorem chained_append {α : Type} (prevOf : α → Ptr) (cells cells0 : List α) (root : Ptr)
    (c : α) (h : Chained prevOf cells root)
    (hmap : cells0.map prevOf = cells.map prevOf) (hc : prevOf c = root) :
    Chained prevOf (cells0 ++ [c]) (Ptr.node cells.length) := by
  have hlen : cells0.length = cells.length := by
    simpa using congrArg List.length hmap
  refine ⟨?_, ?_⟩
  · intro i x hx
    by_cases hi : i < cells0.length
    · rw [List.getElem?_append_left hi] at hx
      have h1 : (cells0.map prevOf)[i]? = some (prevOf x) := by
        rw [List.getElem?_map, hx]; rfl
      rw [hmap, List.getElem?_map] at h1
      cases hci : cells[i]? with
      | none => rw [hci] at h1; simp at h1
      | some y =>
        rw [hci] at h1
        simp only [Option.map_some', Option.some.injEq] at h1
        rw [← h1]
        exact h.1 i y hci
    · rw [List.getElem?_append_right (by omega)] at hx
      have hi0 : i - cells0.length = 0 := by
        by_contra hne
        have : ([c] : List α)[i - cells0.length]? = none := by
          apply List.getElem?_eq_none
          simp only [List.length_singleton]
          omega
        rw [this] at hx
        simp at hx
      rw [hi0] at hx
      simp only [List.getElem?_cons_zero, Option.some.injEq] at hx
      subst hx
      have hieq : i = cells.length := by omega
      rw [hc, h.2, hieq]
  · have : (cells0 ++ [c]).length - 1 = cells.length := by simp [hlen]
    rw [this, if_neg (by simp)]

theorem map_prev_modify_ring (p : Ptr) :
    ∀ (cells : List Ring_node) (i : Nat),
      (cells.modify (fun c => { c with next := p }) i).map Ring_node.prev =
        cells.map Ring_node.prev := by
  intro cells
  induction cells with
  | nil => intro i; simp
  | cons c cs ih =>
    intro i
    cases i with
    | zero => simp
    | succ n => simp [ih n]

theorem map_prev_modify_prismlist (p : Ptr) :
    ∀ (cells : List Prismlist_node) (i : Nat),
      (cells.modify (fun c => { c with next := p }) i).map Prismlist_node.prev =
        cells.map Prismlist_node.prev := by
  intro cells
  induction cells with
  | nil => intro i; simp
  | cons c cs ih =>
    intro i
    cases i with
    | zero => simp
    | succ n => simp [ih n]

theorem map_prev_modify_bl (p : Ptr) :
    ∀ (cells : List BL_node) (i : Nat),
      (cells.modify (fun c => { c with next := p }) i).map BL_node.prev =
        cells.map BL_node.prev := by
  intro cells
  induction cells with
  | nil => intro i; simp
  | cons c cs ih =>
    intro i
    cases i with
    | zero => simp
    | succ n => simp [ih n]

theorem map_entry_modify_bl (p : Ptr) :
    ∀ (cells : List BL_node) (i : Nat),
      (cells.modify (fun c => { c with next := p }) i).map (fun c => (c.ring, c.prismlist)) =
        cells.map (fun c => (c.ring, c.prismlist)) := by
  intro cells
  induction cells with
  | nil => intro i; simp
  | cons c cs ih =>
    intro i
    cases i with
    | zero => simp
    | succ n => simp [ih n]

theorem Ring_addEdge_chained (r : Ring) (key : Int)
    (h : Chained Ring_node.prev r.cells r.root) :
    Chained Ring_node.prev (r.addEdge key).cells (r.addEdge key).root := by
  unfold Ring.addEdge
  by_cases hr : r.root = Ptr.null
  · rw [if_pos hr]
    exact chained_append Ring_node.prev r.cells r.cells r.root _ h rfl hr.symm
  · rw [if_neg hr]
    refine chained_append Ring_node.prev r.cells _ r.root _ h ?_ rfl
    split
    · exact map_prev_modify_ring _ _ _
    · rfl

theorem Prismlist_addPrism_chained (p : Prismlist) (key1 key2 : Int)
    (h : Chained Prismlist_node.prev p.cells p.root) :
    Chained Prismlist_node.prev (p.addPrism key1 key2).cells (p.addPrism key1 key2).root := by
  unfold Prismlist.addPrism
  by_cases hr : p.root = Ptr.null
  · rw [if_pos hr]
    exact chained_append Prismlist_node.prev p.cells p.cells p.root _ h rfl hr.symm
  · rw [if_neg hr]
    refine chained_append Prismlist_node.prev p.cells _ p.root _ h ?_ rfl
    split
    · exact map_prev_modify_prismlist _ _ _
    · rfl

theorem BL_addBL_chained (b : BL) (r : Ring) (p : Prismlist)
    (h : Chained BL_node.prev b.cells b.root) :
    Chained BL_node.prev (b.addBL r p).cells (b.addBL r p).root := by
  unfold BL.addBL
  by_cases hr : b.root = Ptr.null
  · rw [if_pos hr]
    exact chained_append BL_node.prev b.cells b.cells b.root _ h rfl hr.symm
  · rw [if_neg hr]
    refine chained_append BL_node.prev b.cells _ b.root _ h ?_ rfl
    split
    · exact map_prev_modify_bl _ _ _
    · rfl

theorem BL_addBL_entries (b : BL) (r : Ring) (p : Prismlist) :
    (b.addBL r p).cells.map (fun c => (c.ring, c.prismlist)) =
        b.cells.map (fun c => (c.ring, c.prismlist)) ++ [(r, p)] ∧
    (b.addBL r p).num_bl = b.num_bl + 1 := by
  unfold BL.addBL
  by_cases h : b.root = Ptr.null
  · simp [h]
  · rw [if_neg h]
    refine ⟨?_, rfl⟩
    simp only [List.map_append, List.map_cons, List.map_nil]
    congr 1
    split
    · exact map_entry_modify_bl _ _ _
    · rfl

theorem Ring_foldl_addEdge (ks : List Int) :
    ∀ r : Ring, Chained Ring_node.prev r.cells r.root →
      Chained Ring_node.prev (ks.foldl Ring.addEdge r).cells (ks.foldl Ring.addEdge r).root ∧
      (ks.foldl Ring.addEdge r).cells.map Ring_node.key = r.cells.map Ring_node.key ++ ks ∧
      (ks.foldl Ring.addEdge r).num_edges = r.num_edges + (ks.length : Int) := by
  induction ks with
  | nil => intro r h; simp [h]
  | cons k rest ih =>
    intro r h
    obtain ⟨h1, h2, h3⟩ := ih (r.addEdge k) (Ring_addEdge_chained r k h)
    refine ⟨h1, ?_, ?_⟩
    · rw [List.foldl_cons, h2, (Ring_addEdge_keys r k).1]
      simp
    · rw [List.foldl_cons, h3, (Ring_addEdge_keys r k).2, List.length_cons]
      push_cast
      ring

/-- C18: the ring is an append-only ordered sequence. After `addEdge k1`, ..., `addEdge kn`
on an empty ring, `num_edges` is `n`, `n` cells have been allocated, `root` points to the
cell allocated last, which holds `kn`, and following `prev` links from `root` visits exactly
`n` cells, holding `kn`, ..., `k1`; duplicates are kept. -/
theorem ring_is_reversed_insertions (ks : List Int) :
    (ks.foldl Ring.addEdge Ring.new).num_edges = (ks.length : Int) ∧
    (ks.foldl Ring.addEdge Ring.new).cells.length = ks.length ∧
    (ks.foldl Ring.addEdge Ring.new).cells.map Ring_node.key = ks ∧
    (ks.foldl Ring.addEdge Ring.new).root =
      (if ks.length = 0 then Ptr.null else Ptr.node (ks.length - 1)) ∧
    ((ks.foldl Ring.addEdge Ring.new).cells[ks.length - 1]?).map Ring_node.key =
      ks.getLast? ∧
    (ks.foldl Ring.addEdge Ring.new).keysFromRoot = ks.reverse ∧
    (ks.foldl Ring.addEdge Ring.new).keysFromRoot.length = ks.length := by
  obtain ⟨h1, h2, h3⟩ := Ring_foldl_addEdge ks Ring.new (chained_nil Ring_node.prev)
  have hkeys : (ks.foldl Ring.addEdge Ring.new).cells.map Ring_node.key = ks := by
    rw [h2]; rfl
  have hlen : (ks.foldl Ring.addEdge Ring.new).cells.length = ks.length := by
    simpa using congrArg List.length hkeys
  have hwalk : (ks.foldl Ring.addEdge Ring.new).keysFromRoot = ks.reverse := by
    unfold Ring.keysFromRoot
    rw [Ring_walkPrev_eq, walkPrevOf_root Ring_node.prev Ring_node.key _ _ h1, hkeys]
  refine ⟨?_, hlen, hkeys, ?_, ?_, hwalk, ?_⟩
  · rw [h3]; simp [Ring.new]
  · rw [h1.2, hlen]
  · rw [← List.getElem?_map, hkeys, List.getLast?_eq_getElem?]
  · rw [hwalk, List.length_reverse]

theorem ring_is_reversed_insertions_witness :
    ([53, 51, 53].foldl Ring.addEdge Ring.new).keysFromRoot = [53, 51, 53] ∧
    ([53, 51, 53].foldl Ring.addEdge Ring.new).root = Ptr.node 2 ∧
    ([53, 51, 53].foldl Ring.addEdge Ring.new).num_edges = 3 :=
  ⟨(ring_is_reversed_insertions [53, 51, 53]).2.2.2.2.2.1,
   (ring_is_reversed_insertions [53, 51, 53]).2.2.2.1,
   (ring_is_reversed_insertions [53, 51, 53]).1⟩

/-! ### Lemmas on the record kept by a facegroup loop -/

theorem traced_start (codes : List (Int × YsColor)) :
    Traced { elem3dColorCode := codes, ring := Ring.new, prismlist := Prismlist.new,
             facegroup_is_valid := false } [] :=
  ⟨rfl, rfl, rfl, rfl, rfl, chained_nil Ring_node.prev, chained_nil Prismlist_node.prev⟩

theorem sharpEdge_traced (el2d : Elem2d) (edge : Edge) (neighbor : Elem2d) (s : FgState)
    (tr : List (Elem2d × Edge × Elem2d)) (h : Traced s tr) :
    Traced (sharpEdge el2d edge neighbor s) (tr ++ [(el2d, edge, neighbor)]) := by
  obtain ⟨h1, h2, h3, h4, _, h6, h7⟩ := h
  have hr := Ring_addEdge_keys s.ring edge.key
  have hp := Prismlist_addPrism_pairs s.prismlist
    (colourLoop YsColor.red el2d.elem3d s.elem3dColorCode).2
    (colourLoop YsColor.green neighbor.elem3d
      (colourLoop YsColor.red el2d.elem3d s.elem3dColorCode).1).2
  refine ⟨?_, ?_, ?_, ?_, ?_, ?_, ?_⟩
  · show (s.ring.addEdge edge.key).cells.map Ring_node.key = _
    rw [hr.1, h1]
    simp
  · show (s.prismlist.addPrism _ _).cells.map (fun c => (c.key_r, c.key_g)) = _
    rw [hp.1, h2, colourLoop_key, colourLoop_key]
    simp
  · show (s.ring.addEdge edge.key).num_edges = _
    rw [hr.2, h3]
    simp
  · show (s.prismlist.addPrism _ _).num_prisms = _
    rw [hp.2, h4]
    simp
  · show true = _
    simp
  · exact Ring_addEdge_chained s.ring edge.key h6
  · exact Prismlist_addPrism_chained s.prismlist _ _ h7

theorem neighborStep_cases (mesh : YsMesh) (fgHd_key : Int) (el2d : Elem2d) (edge : Edge)
    (neighbor : Elem2d) (s : FgState) :
    (neighborStep mesh fgHd_key el2d edge neighbor s).1 = s ∨
    (neighborStep mesh fgHd_key el2d edge neighbor s = (sharpEdge el2d edge neighbor s, false) ∧
      notConvex el2d neighbor = false ∧
      ∃ fg', mesh.FindFaceGroupFromElem2d neighbor = some fg' ∧
        isSharp fgHd_key fg' el2d neighbor = true) := by
  cases hfind : mesh.FindFaceGroupFromElem2d neighbor with
  | none =>
    left
    unfold neighborStep
    rw [hfind]
  | some fg' =>
    cases hc : notConvex el2d neighbor with
    | true =>
      left
      unfold neighborStep
      simp [hfind, hc]
    | false =>
      cases hs : isSharp fgHd_key fg' el2d neighbor with
      | false =>
        left
        unfold neighborStep
        simp [hfind, hc, hs]
      | true =>
        right
        exact ⟨neighborStep_of_sharp mesh fgHd_key el2d edge neighbor s fg' hfind hc hs, rfl,
          fg', rfl, hs⟩

theorem neighborLoop_traced (mesh : YsMesh) (fg : FaceGroup) (el2d : Elem2d) (edge : Edge)
    (hf : el2d ∈ fg.faces) (he : edge ∈ el2d.edges) :
    ∀ (neighbors : List Elem2d) (s : FgState) (tr : List (Elem2d × Edge × Elem2d)),
      (∀ g ∈ neighbors, g ∈ mesh.FindElem2dFromNode edge.nd0) → Traced s tr →
      ∃ ext, Traced (neighborLoop mesh fg.key el2d edge neighbors s) (tr ++ ext) ∧
        ∀ t ∈ ext, SharpTriple mesh fg t := by
  intro neighbors
  induction neighbors with
  | nil =>
    intro s tr _ h
    exact ⟨[], by simpa [neighborLoop] using h, by simp⟩
  | cons g gs ih =>
    intro s tr hmem h
    have hgs : ∀ x ∈ gs, x ∈ mesh.FindElem2dFromNode edge.nd0 :=
      fun x hx => hmem x (by simp [hx])
    conv => enter [1, ext, 1, 1]; unfold neighborLoop
    rcases neighborStep_cases mesh fg.key el2d edge g s with hsame | ⟨hstep, hconv, hsharp⟩
    · by_cases hb : (neighborStep mesh fg.key el2d edge g s).2 = true
      · refine ⟨[], ?_, by simp⟩
        simp only [hb, if_true, hsame, List.append_nil]
        exact h
      · simp only [hb, hsame]
        exact ih s tr hgs h
    · obtain ⟨ext, hext, hall⟩ := ih (sharpEdge el2d edge g s) (tr ++ [(el2d, edge, g)]) hgs
        (sharpEdge_traced el2d edge g s tr h)
      refine ⟨(el2d, edge, g) :: ext, ?_, ?_⟩
      · simp only [hstep]
        simpa using hext
      · intro t ht
        rcases List.mem_cons.1 ht with rfl | ht
        · exact ⟨hf, he, hmem g (by simp), hconv, hsharp⟩
        · exact hall t ht

theorem foldl_traced {β : Type} (Q : Elem2d × Edge × Elem2d → Prop)
    (f : FgState → β → FgState) (P : β → Prop)
    (hstep : ∀ b, P b → ∀ s tr, Traced s tr →
      ∃ ext, Traced (f s b) (tr ++ ext) ∧ ∀ t ∈ ext, Q t) :
    ∀ (l : List β), (∀ b ∈ l, P b) → ∀ s tr, Traced s tr →
      ∃ ext, Traced (l.foldl f s) (tr ++ ext) ∧ ∀ t ∈ ext, Q t := by
  intro l
  induction l with
  | nil =>
    intro _ s tr h
    exact ⟨[], by simpa using h, by simp⟩
  | cons b bs ih =>
    intro hP s tr h
    obtain ⟨e1, h1, q1⟩ := hstep b (hP b (by simp)) s tr h
    obtain ⟨e2, h2, q2⟩ := ih (fun x hx => hP x (by simp [hx])) (f s b) (tr ++ e1) h1
    refine ⟨e1 ++ e2, ?_, ?_⟩
    · simpa using h2
    · intro t ht
      rcases List.mem_append.1 ht with ht | ht
      · exact q1 t ht
      · exact q2 t ht

theorem faceLoop_traced (mesh : YsMesh) (fg : FaceGroup) (codes : List (Int × YsColor)) :
    ∃ trace, Traced (faceLoop mesh fg codes) trace ∧ ∀ t ∈ trace, SharpTriple mesh fg t := by
  have hface : ∀ el2d, el2d ∈ fg.faces → ∀ s tr, Traced s tr →
      ∃ ext, Traced (faceStep mesh fg.key s el2d) (tr ++ ext) ∧
        ∀ t ∈ ext, SharpTriple mesh fg t := by
    intro el2d hf s tr h
    unfold faceStep
    refine foldl_traced (SharpTriple mesh fg) (edgeStep mesh fg.key el2d)
      (fun e => e ∈ el2d.edges) ?_ el2d.edges (fun e he => he) s tr h
    intro edge he s' tr' h'
    unfold edgeStep
    exact neighborLoop_traced mesh fg el2d edge hf he _ s' tr' (fun g hg => hg) h'
  obtain ⟨ext, h1, h2⟩ := foldl_traced (SharpTriple mesh fg) (faceStep mesh fg.key)
    (fun f => f ∈ fg.faces) hface fg.faces (fun f hf => hf) _ [] (traced_start codes)
  exact ⟨ext, by simpa [faceLoop] using h1, h2⟩

/-! ### The lists do not depend on the colour table -/

theorem sharpEdge_lists (el2d : Elem2d) (edge : Edge) (neighbor : Elem2d) (s s' : FgState)
    (h : s.lists = s'.lists) :
    (sharpEdge el2d edge neighbor s).lists = (sharpEdge el2d edge neighbor s').lists := by
  simp only [FgState.lists, Prod.mk.injEq] at h
  obtain ⟨hr, hp, _⟩ := h
  simp only [FgState.lists, sharpEdge, colourLoop_key, hr, hp]

theorem neighborStep_lists (mesh : YsMesh) (fgHd_key : Int) (el2d : Elem2d) (edge : Edge)
    (neighbor : Elem2d) (s s' : FgState) (h : s.lists = s'.lists) :
    (neighborStep mesh fgHd_key el2d edge neighbor s).1.lists =
        (neighborStep mesh fgHd_key el2d edge neighbor s').1.lists ∧
    (neighborStep mesh fgHd_key el2d edge neighbor s).2 =
        (neighborStep mesh fgHd_key el2d edge neighbor s').2 := by
  unfold neighborStep
  cases mesh.FindFaceGroupFromElem2d neighbor with
  | none => exact ⟨h, rfl⟩
  | some fg' =>
    cases notConvex el2d neighbor with
    | true => exact ⟨h, rfl⟩
    | false =>
      cases hs : isSharp fgHd_key fg' el2d neighbor with
      | false =>
        simp only [hs, Bool.false_eq_true, if_false]
        exact ⟨h, trivial⟩
      | true =>
        simp only [hs, Bool.false_eq_true, if_false, if_true]
        exact ⟨sharpEdge_lists el2d edge neighbor s s' h, trivial⟩

theorem neighborLoop_lists (mesh : YsMesh) (fgHd_key : Int) (el2d : Elem2d) (edge : Edge) :
    ∀ (neighbors : List Elem2d) (s s' : FgState), s.lists = s'.lists →
      (neighborLoop mesh fgHd_key el2d edge neighbors s).lists =
        (neighborLoop mesh fgHd_key el2d edge neighbors s').lists := by
  intro neighbors
  induction neighbors with
  | nil => intro s s' h; exact h
  | cons g gs ih =>
    intro s s' h
    obtain ⟨h1, h2⟩ := neighborStep_lists mesh fgHd_key el2d edge g s s' h
    unfold neighborLoop
    simp only [h2]
    split
    · exact h1
    · exact ih _ _ h1

theorem foldl_lists {β : Type} (f : FgState → β → FgState)
    (hstep : ∀ b s s', s.lists = s'.lists → (f s b).lists = (f s' b).lists) :
    ∀ (l : List β) (s s' : FgState), s.lists = s'.lists →
      (l.foldl f s).lists = (l.foldl f s').lists := by
  intro l
  induction l with
  | nil => intro s s' h; exact h
  | cons b bs ih => intro s s' h; exact ih _ _ (hstep b s s' h)

theorem faceLoop_lists (mesh : YsMesh) (fg : FaceGroup) (codes : List (Int × YsColor)) :
    (faceLoop mesh fg codes).lists = (faceLoop mesh fg []).lists := by
  unfold faceLoop
  apply foldl_lists
  · intro el2d s s' h
    unfold faceStep
    apply foldl_lists
    · intro edge t t' ht
      exact neighborLoop_lists mesh fg.key el2d edge _ t t' ht
    · exact h
  · rfl

theorem facegroupStep_bl (mesh : YsMesh) (st : ColorState) (fg : FaceGroup) :
    (facegroupStep mesh st fg).bl =
      if commits mesh fg then
        st.bl.addBL (faceLoop mesh fg []).ring (faceLoop mesh fg []).prismlist
      else st.bl := by
  have hl := faceLoop_lists mesh fg st.elem3dColorCode
  simp only [FgState.lists, Prod.mk.injEq] at hl
  obtain ⟨hr, hp, hv⟩ := hl
  unfold facegroupStep commits
  by_cases hn : 0 < fg.nLayer
  · simp only [hn, if_true, decide_True, Bool.true_and]
    rw [← hv]
    cases hvalid : (faceLoop mesh fg st.elem3dColorCode).facegroup_is_valid with
    | true => simp [hr, hp]
    | false => simp
  · simp [hn]

theorem foldl_facegroupStep_bl (mesh : YsMesh) :
    ∀ (fgs : List FaceGroup) (st : ColorState),
      (fgs.foldl (facegroupStep mesh) st).bl =
        (fgs.filter (commits mesh)).foldl
          (fun b fg => b.addBL (faceLoop mesh fg []).ring (faceLoop mesh fg []).prismlist)
          st.bl := by
  intro fgs
  induction fgs with
  | nil => intro st; rfl
  | cons fg rest ih =>
    intro st
    rw [List.foldl_cons, ih, facegroupStep_bl]
    by_cases hc : commits mesh fg = true
    · simp [List.filter_cons, hc]
    · simp [List.filter_cons, hc]

theorem foldl_addBL (mesh : YsMesh) :
    ∀ (fgs : List FaceGroup) (b : BL), Chained BL_node.prev b.cells b.root →
      Chained BL_node.prev
        (fgs.foldl (fun b fg =>
          b.addBL (faceLoop mesh fg []).ring (faceLoop mesh fg []).prismlist) b).cells
        (fgs.foldl (fun b fg =>
          b.addBL (faceLoop mesh fg []).ring (faceLoop mesh fg []).prismlist) b).root ∧
      (fgs.foldl (fun b fg =>
          b.addBL (faceLoop mesh fg []).ring (faceLoop mesh fg []).prismlist) b).cells.map
          (fun c => (c.ring, c.prismlist)) =
        b.cells.map (fun c => (c.ring, c.prismlist)) ++
          fgs.map (fun fg => ((faceLoop mesh fg []).ring, (faceLoop mesh fg []).prismlist)) ∧
      (fgs.foldl (fun b fg =>
          b.addBL (faceLoop mesh fg []).ring (faceLoop mesh fg []).prismlist) b).num_bl =
        b.num_bl + (fgs.length : Int) := by
  intro fgs
  induction fgs with
  | nil => intro b h; simp [h]
  | cons fg rest ih =>
    intro b h
    obtain ⟨h1, h2, h3⟩ := ih _ (BL_addBL_chained b (faceLoop mesh fg []).ring
      (faceLoop mesh fg []).prismlist h)
    refine ⟨h1, ?_, ?_⟩
    · rw [List.foldl_cons, h2, (BL_addBL_entries b _ _).1]
      simp
    · rw [List.foldl_cons, h3, (BL_addBL_entries b _ _).2, List.length_cons]
      push_cast
      ring

theorem ColorElements_registry (mesh : YsMesh) (codes : List (Int × YsColor)) :
    (ColorElements mesh codes).bl.cells.map (fun c => (c.ring, c.prismlist)) =
        (mesh.faceGroups.filter (commits mesh)).map
          (fun fg => ((faceLoop mesh fg []).ring, (faceLoop mesh fg []).prismlist)) ∧
    (ColorElements mesh codes).bl.num_bl = ((mesh.faceGroups.filter (commits mesh)).length : Int) ∧
    (ColorElements mesh codes).bl.entriesFromRoot =
        ((mesh.faceGroups.filter (commits mesh)).map
          (fun fg => ((faceLoop mesh fg []).ring, (faceLoop mesh fg []).prismlist))).reverse := by
  have hbl : (ColorElements mesh codes).bl =
      (mesh.faceGroups.filter (commits mesh)).foldl
        (fun b fg => b.addBL (faceLoop mesh fg []).ring (faceLoop mesh fg []).prismlist)
        BL.new := by
    unfold ColorElements
    exact foldl_facegroupStep_bl mesh mesh.faceGroups _
  obtain ⟨h1, h2, h3⟩ := foldl_addBL mesh (mesh.faceGroups.filter (commits mesh)) BL.new
    (chained_nil BL_node.prev)
  rw [← hbl] at h1 h2 h3
  have hcells : (ColorElements mesh codes).bl.cells.map (fun c => (c.ring, c.prismlist)) =
      (mesh.faceGroups.filter (commits mesh)).map
        (fun fg => ((faceLoop mesh fg []).ring, (faceLoop mesh fg []).prismlist)) := by
    rw [h2]; rfl
  refine ⟨hcells, ?_, ?_⟩
  · rw [h3]; simp [BL.new]
  · unfold BL.entriesFromRoot
    rw [BL_walkPrev_eq, walkPrevOf_root BL_node.prev _ _ _ h1, hcells]

theorem traced_views (s : FgState) (tr : List (Elem2d × Edge × Elem2d)) (h : Traced s tr) :
    s.ring.num_edges = s.prismlist.num_prisms ∧
    s.ring.cells.length = tr.length ∧
    s.prismlist.cells.length = tr.length ∧
    s.ring.keysFromRoot = (tr.map (fun t => t.2.1.key)).reverse ∧
    s.prismlist.pairsFromRoot =
      (tr.map (fun t => ((t.1.elem3d.map (fun el => el.key)).getLastD 0,
        (t.2.2.elem3d.map (fun el => el.key)).getLastD 0))).reverse := by
  obtain ⟨h1, h2, h3, h4, _, h6, h7⟩ := h
  refine ⟨by rw [h3, h4], ?_, ?_, ?_, ?_⟩
  · simpa using congrArg List.length h1
  · simpa using congrArg List.length h2
  · unfold Ring.keysFromRoot
    rw [Ring_walkPrev_eq, walkPrevOf_root Ring_node.prev Ring_node.key _ _ h6, h1]
  · unfold Prismlist.pairsFromRoot
    rw [Prismlist_walkPrev_eq, walkPrevOf_root Prismlist_node.prev _ _ _ h7, h2]

theorem commits_iff (mesh : YsMesh) (fg : FaceGroup) :
    commits mesh fg = true ↔
      0 < fg.nLayer ∧ ∃ trace, trace ≠ [] ∧ Traced (faceLoop mesh fg []) trace ∧
        ∀ t ∈ trace, SharpTriple mesh fg t := by
  unfold commits
  constructor
  · intro h
    simp only [Bool.and_eq_true, decide_eq_true_eq] at h
    obtain ⟨trace, ht, hall⟩ := faceLoop_traced mesh fg []
    refine ⟨h.1, trace, ?_, ht, hall⟩
    intro hnil
    have hflag := ht.2.2.2.2.1
    rw [h.2, hnil] at hflag
    simp at hflag
  · rintro ⟨hn, trace, hne, ht, _⟩
    have hflag := ht.2.2.2.2.1
    cases trace with
    | nil => exact absurd rfl hne
    | cons a as =>
      simp only [List.isEmpty_cons, Bool.not_false] at hflag
      simp [hn, hflag]

theorem registry_cell_origin (mesh : YsMesh) (codes : List (Int × YsColor)) (c : BL_node)
    (hc : c ∈ (ColorElements mesh codes).bl.cells) :
    ∃ fg ∈ mesh.faceGroups, commits mesh fg = true ∧
      c.ring = (faceLoop mesh fg []).ring ∧ c.prismlist = (faceLoop mesh fg []).prismlist := by
  have hmem : (c.ring, c.prismlist) ∈
      (ColorElements mesh codes).bl.cells.map (fun c => (c.ring, c.prismlist)) :=
    List.mem_map.2 ⟨c, hc, rfl⟩
  rw [(ColorElements_registry mesh codes).1] at hmem
  obtain ⟨fg, hfg, heq⟩ := List.mem_map.1 hmem
  obtain ⟨hin, hcom⟩ := List.mem_filter.1 hfg
  simp only [Prod.mk.injEq] at heq
  exact ⟨fg, hin, hcom, heq.1.symm, heq.2.symm⟩

/-- C11: after classification the registry holds, in facegroup enumeration order, one entry
(the ring and the prism list of the facegroup) for exactly the facegroups with `nLayer > 0`
whose face loop took the sharp-edge branch at least once; following `prev` links from `root`
meets these entries, last first; `num_bl` is their number; every committed ring has at least
one edge key; a facegroup is committed exactly when it has `nLayer > 0` and its record of
sharp-edge steps is not empty, so a facegroup with no sharp edge contributes no entry. The
ring, prism list and flag of a facegroup do not depend on the colour table. -/
theorem registry_holds_sharp_facegroups (mesh : YsMesh) (codes : List (Int × YsColor)) :
    (ColorElements mesh codes).bl.cells.map (fun c => (c.ring, c.prismlist)) =
        (mesh.faceGroups.filter (commits mesh)).map
          (fun fg => ((faceLoop mesh fg []).ring, (faceLoop mesh fg []).prismlist)) ∧
    (ColorElements mesh codes).bl.entriesFromRoot =
        ((mesh.faceGroups.filter (commits mesh)).map
          (fun fg => ((faceLoop mesh fg []).ring, (faceLoop mesh fg []).prismlist))).reverse ∧
    (ColorElements mesh codes).bl.num_bl =
        ((mesh.faceGroups.filter (commits mesh)).length : Int) ∧
    (∀ c ∈ (ColorElements mesh codes).bl.cells,
      1 ≤ c.ring.num_edges ∧ c.ring.cells ≠ [] ∧ c.ring.keysFromRoot ≠ []) ∧
    (∀ fg : FaceGroup, commits mesh fg = true ↔
      0 < fg.nLayer ∧ ∃ trace, trace ≠ [] ∧ Traced (faceLoop mesh fg []) trace ∧
        ∀ t ∈ trace, SharpTriple mesh fg t) ∧
    (∀ (fg : FaceGroup) (codes' : List (Int × YsColor)),
      (faceLoop mesh fg codes').lists = (faceLoop mesh fg []).lists) := by
  obtain ⟨h1, h2, h3⟩ := ColorElements_registry mesh codes
  refine ⟨h1, h3, h2, ?_, commits_iff mesh, fun fg codes' => faceLoop_lists mesh fg codes'⟩
  intro c hc
  obtain ⟨fg, _, hcom, hr, _⟩ := registry_cell_origin mesh codes c hc
  obtain ⟨_, trace, hne, ht, _⟩ := (commits_iff mesh fg).1 hcom
  have hv := traced_views _ trace ht
  have hlen : 1 ≤ trace.length := by
    cases trace with
    | nil => exact absurd rfl hne
    | cons a as => simp
  rw [hr]
  refine ⟨?_, ?_, ?_⟩
  · rw [ht.2.2.1]
    exact_mod_cast hlen
  · intro hnil
    have := hv.2.1
    rw [hnil] at this
    simp at this
    omega
  · intro hnil
    have := congrArg List.length hv.2.2.2.1
    rw [hnil] at this
    simp at this
    omega

theorem registry_holds_sharp_facegroups_witness :
    (ColorElements exCorner []).bl.num_bl = 2 ∧ (ColorElements exFlat []).bl.num_bl = 0 :=
  ⟨((registry_holds_sharp_facegroups exCorner []).2.2.1).trans (by decide!),
   ((registry_holds_sharp_facegroups exFlat []).2.2.1).trans (by decide!)⟩

/-- C12: index alignment. A neighbour step keeps the ring and the prism list aligned: it
leaves both as they were or appends to both at once, the key of the edge to the ring and the
pair (key of the last element found for the face, key of the last element found for the
neighbour; 0 when none is found) to the prism list. Hence at every point of the pass the two
counters and the two lengths agree, and for every registry entry there is the list of
sharp-edge steps (face, edge, neighbour) of its facegroup such that the `i`-th ring key is the
key of the edge of the `i`-th step and the `i`-th pair holds the last-element keys of its
face and neighbour, in allocation order and, reversed, along the `prev` links from `root`. -/
theorem ring_and_prismlist_aligned (mesh : YsMesh) (codes : List (Int × YsColor)) :
    (∀ (fgHd_key : Int) (el2d : Elem2d) (edge : Edge) (neighbor : Elem2d) (s : FgState)
        (tr : List (Elem2d × Edge × Elem2d)), Traced s tr →
      Traced (neighborStep mesh fgHd_key el2d edge neighbor s).1 tr ∨
      Traced (neighborStep mesh fgHd_key el2d edge neighbor s).1 (tr ++ [(el2d, edge, neighbor)])) ∧
    (∀ (s : FgState) (tr : List (Elem2d × Edge × Elem2d)), Traced s tr →
      s.ring.num_edges = s.prismlist.num_prisms ∧
      s.ring.cells.length = s.prismlist.cells.length) ∧
    (∀ (fg : FaceGroup) (codes' : List (Int × YsColor)),
      ∃ trace, Traced (faceLoop mesh fg codes') trace ∧ ∀ t ∈ trace, SharpTriple mesh fg t) ∧
    (∀ c ∈ (ColorElements mesh codes).bl.cells,
      ∃ fg ∈ mesh.faceGroups, ∃ trace : List (Elem2d × Edge × Elem2d),
        (∀ t ∈ trace, SharpTriple mesh fg t) ∧
        c.ring.num_edges = c.prismlist.num_prisms ∧
        c.ring.cells.length = c.prismlist.cells.length ∧
        c.ring.cells.map Ring_node.key = trace.map (fun t => t.2.1.key) ∧
        c.prismlist.cells.map (fun c => (c.key_r, c.key_g)) =
          trace.map (fun t => ((t.1.elem3d.map (fun el => el.key)).getLastD 0,
            (t.2.2.elem3d.map (fun el => el.key)).getLastD 0)) ∧
        c.ring.keysFromRoot = (trace.map (fun t => t.2.1.key)).reverse ∧
        c.prismlist.pairsFromRoot =
          (trace.map (fun t => ((t.1.elem3d.map (fun el => el.key)).getLastD 0,
            (t.2.2.elem3d.map (fun el => el.key)).getLastD 0))).reverse) := by
  refine ⟨?_, ?_, fun fg codes' => faceLoop_traced mesh fg codes', ?_⟩
  · intro fgHd_key el2d edge neighbor s tr h
    rcases neighborStep_cases mesh fgHd_key el2d edge neighbor s with hsame | ⟨hstep, _, _⟩
    · left; rw [hsame]; exact h
    · right; rw [hstep]; exact sharpEdge_traced el2d edge neighbor s tr h
  · intro s tr h
    have hv := traced_views s tr h
    exact ⟨hv.1, by rw [hv.2.1, hv.2.2.1]⟩
  · intro c hc
    obtain ⟨fg, hin, _, hr, hp⟩ := registry_cell_origin mesh codes c hc
    obtain ⟨trace, ht, hall⟩ := faceLoop_traced mesh fg []
    have hv := traced_views _ trace ht
    refine ⟨fg, hin, trace, hall, ?_, ?_, ?_, ?_, ?_, ?_⟩
    · rw [hr, hp]; exact hv.1
    · rw [hr, hp, hv.2.1, hv.2.2.1]
    · rw [hr]; exact ht.1
    · rw [hp]; exact ht.2.1
    · rw [hr]; exact hv.2.2.2.1
    · rw [hp]; exact hv.2.2.2.2

theorem ring_and_prismlist_aligned_witness :
    (ColorElements exCorner []).bl.cells.map
        (fun c => (c.ring.keysFromRoot, c.prismlist.pairsFromRoot)) =
      [([53, 51], [(21, 22), (21, 22)]), ([55, 53], [(22, 21), (22, 21)])] ∧
    ∀ c ∈ (ColorElements exCorner []).bl.cells,
      ∃ fg ∈ exCorner.faceGroups, ∃ trace : List (Elem2d × Edge × Elem2d),
        (∀ t ∈ trace, SharpTriple exCorner fg t) ∧
        c.ring.num_edges = c.prismlist.num_prisms ∧
        c.ring.cells.length = c.prismlist.cells.length ∧
        c.ring.cells.map Ring_node.key = trace.map (fun t => t.2.1.key) ∧
        c.prismlist.cells.map (fun c => (c.key_r, c.key_g)) =
          trace.map (fun t => ((t.1.elem3d.map (fun el => el.key)).getLastD 0,
            (t.2.2.elem3d.map (fun el => el.key)).getLastD 0)) ∧
        c.ring.keysFromRoot = (trace.map (fun t => t.2.1.key)).reverse ∧
        c.prismlist.pairsFromRoot =
          (trace.map (fun t => ((t.1.elem3d.map (fun el => el.key)).getLastD 0,
            (t.2.2.elem3d.map (fun el => el.key)).getLastD 0))).reverse :=
  ⟨by decide!, (ring_and_prismlist_aligned exCorner []).2.2.2⟩


end BoundaryLayer
